import Mathlib

/-!
Verification of the `castep_dos_rust` PDOS engine against its design
specification.

Shallow embedding conventions:
- Rust `f64` values are modelled as `ℚ` (exact field arithmetic); the
  irrational constants the code computes (`sqrt(2*PI)`) and the
  transcendental `exp` are passed as parameters of the embedding, so the
  numeric pipeline itself stays exact and executable.
- Rust `u32`/`usize` are modelled as `Nat`.
- Byte streams are `List Nat` (one entry per byte); the winnow cursor
  (`&mut &[u8]`) is modelled by threading the remaining stream through every
  parsing function, including on the error path (winnow leaves the cursor
  where the failing parser stopped, except that `verify` and `repeat`
  rewind their own failed attempt).
- Rust panics (`unwrap`, out-of-bounds indexing, `unimplemented!`) are
  modelled as a distinguished error / `none` result, kept separate from
  recoverable parse errors.
-/

/-- Angular momentum channel codes, from `fundamental/angular_momentum.rs`
(`enum AngularMomentum { S, P, D, F }`). -/
inductive AngularMomentum where
  | S : AngularMomentum
  | P : AngularMomentum
  | D : AngularMomentum
  | F : AngularMomentum
deriving DecidableEq, Repr

/-- Conversion from a raw `u32` code, from `impl TryFrom<u32> for
AngularMomentum` ({0:S,1:P,2:D,3:F}, other values are
`AngularMomentumConvertError`, modelled as `none`). -/
def AngularMomentum.tryFrom (value : Nat) : Option AngularMomentum :=
  match value with
  | 0 => some .S
  | 1 => some .P
  | 2 => some .D
  | 3 => some .F
  | _ => none

/-- Spin index of a per-spin block, from `fundamental/spins.rs`
(`enum SpinIndex { One = 1, Two = 2 }`). -/
inductive SpinIndex where
  | one : SpinIndex
  | two : SpinIndex
deriving DecidableEq, Repr

/-- Conversion from a raw `u32`, from `impl TryFrom<u32> for SpinIndex`
(values other than 1 and 2 give `SpinIndexConvertError`, modelled `none`). -/
def SpinIndex.tryFrom (value : Nat) : Option SpinIndex :=
  match value with
  | 1 => some .one
  | 2 => some .two
  | _ => none

/-- Number of spin channels, from `fundamental/spins.rs`
(`enum NumSpins { One, Two }`). -/
inductive NumSpins where
  | one : NumSpins
  | two : NumSpins
deriving DecidableEq, Repr

/-- Conversion from a raw `u32`, from `impl TryFrom<u32> for NumSpins`. -/
def NumSpins.tryFrom (value : Nat) : Option NumSpins :=
  match value with
  | 1 => some .one
  | 2 => some .two
  | _ => none

/-- From `NumSpins::spin_count`. -/
def NumSpins.spin_count : NumSpins → Nat
  | .one => 1
  | .two => 2

/-- Spin-polarization flag, from `enum SpinPolarized { True, False }` in
`fundamental/spins.rs`; modelled as `Bool` (`true` = polarized). -/
abbrev SpinPolarized := Bool

/-- Spin-resolved container, from `fundamental/data_expression.rs`
(`enum SpinData<T> { NonPolarized(T), SpinPolarized([T; 2]) }`); the
two-element array is modelled as two fields (up, down). -/
inductive SpinData (T : Type) where
  | NonPolarized : T → SpinData T
  | SpinPolarized : T → T → SpinData T
deriving DecidableEq, Repr

/-- Tag of a `SpinData` value (`true` = the `SpinPolarized` variant). -/
def SpinData.isPolarized {T : Type} : SpinData T → Bool
  | .NonPolarized _ => false
  | .SpinPolarized _ _ => true

/-- From `SpinData::map` in `fundamental/ergonomics_impl.rs`. -/
def SpinData.map {T U : Type} (x : SpinData T) (f : T → U) : SpinData U :=
  match x with
  | .NonPolarized data => .NonPolarized (f data)
  | .SpinPolarized up down => .SpinPolarized (f up) (f down)

/-- From `SpinData::map_pair` in `fundamental/ergonomics_impl.rs`: combines
two `SpinData` values channel-wise; the source hits `unimplemented!()`
(a panic) on mismatched variants, modelled as `none`. -/
def SpinData.map_pair {T U V : Type} (x : SpinData T) (rhs : SpinData U)
    (f : T → U → V) : Option (SpinData V) :=
  match x, rhs with
  | .NonPolarized data, .NonPolarized rhs_data =>
      some (.NonPolarized (f data rhs_data))
  | .SpinPolarized up down, .SpinPolarized rhs_up rhs_down =>
      some (.SpinPolarized (f up rhs_up) (f down rhs_down))
  | _, _ => none

/-- Helper from `ergonomics_impl.rs` (`map_for_values_of_eigen`): maps a
function over the per-eigenvalue data of one spin channel
(`KpointVec<EigenvalueVec<T>>`, modelled as `List (List T)`). -/
def map_for_values_of_eigen {T U : Type} (channel : List (List T))
    (f : T → U) : List (List U) :=
  channel.map (fun eigens => eigens.map f)

/-- From `SpinData::map_on_data_of_eigenvalue` in `ergonomics_impl.rs`. -/
def SpinData.map_on_data_of_eigenvalue {T U : Type}
    (x : SpinData (List (List T))) (f : T → U) : SpinData (List (List U)) :=
  match x with
  | .NonPolarized kpt_eigen_data =>
      .NonPolarized (map_for_values_of_eigen kpt_eigen_data f)
  | .SpinPolarized up down =>
      .SpinPolarized (map_for_values_of_eigen up f)
        (map_for_values_of_eigen down f)

/-- From `OrbitalWeight::new` in `fundamental/ergonomics_impl.rs`:
`if value < -1.0e-6 { 0.0 } else { value }` (the newtype wrapper is
transparent in the model, so the result is the stored `f64`). -/
def OrbitalWeight.new (value : ℚ) : ℚ :=
  if value < -(1 / 1000000) then 0 else value

/-- From `impl From<f64> for OrbitalWeight` in
`fundamental/ergonomics_impl.rs` (same body as `OrbitalWeight::new`). -/
def OrbitalWeight.fromF64 (value : ℚ) : ℚ :=
  if value < -(1 / 1000000) then 0 else value

/-- The Hartree-to-eV conversion constant `HATREE_TO_EV = 27.211396641308`
(declared both in `fundamental/mod.rs` and `lib.rs`), as an exact rational
in any division ring. -/
def HATREE_TO_EV (K : Type) [DivisionRing K] : K :=
  27211396641308 / 1000000000000

/-- Orbital metadata entry, from `struct OrbitalState` in
`fundamental/data_expression.rs`. -/
structure OrbitalState where
  species_id : Nat
  ion_id : Nat
  angular_momentum : AngularMomentum
deriving DecidableEq, Repr

/-- From `OrbitalState::new`. -/
def OrbitalState.new (species_id : Nat) (ion_id : Nat)
    (angular_momentum : AngularMomentum) : OrbitalState :=
  ⟨species_id, ion_id, angular_momentum⟩

/-- Per-channel orbital weights, from `struct AngularChannels` in
`fundamental/angular_momentum.rs`; parametric in the number carrier. -/
structure AngularChannels (K : Type) where
  s : K
  p : K
  d : K
  f : K
deriving DecidableEq, Repr

/-- Parsed `.pdos_weights` data, from `struct PDOSWeights` in
`fundamental/mod.rs`: `orbital_weights` is indexed
[spin][k-point][eigenvalue][orbital]. -/
structure PDOSWeights where
  spin_polarized : SpinPolarized
  orbital_states : List OrbitalState
  orbital_weights : SpinData (List (List (List ℚ)))
deriving DecidableEq, Repr

/-- Parsed `.bands` data, from `struct BandStructure` in
`fundamental/mod.rs`; parametric in the number carrier. -/
structure BandStructure (K : Type) where
  spin_polarized : SpinPolarized
  fermi_energy : SpinData K
  kpoint_weights : List K
  eigenvalues : SpinData (List (List K))

/-- The per-k-point closure inside `BandStructure::energy_range`
(`fundamental/mod.rs`): maps a k-point's eigenvalue list to
`(first * HATREE_TO_EV, last * HATREE_TO_EV)`; the two `unwrap`s on an
empty eigenvalue list panic, modelled `none`. -/
def kptMinMax (kpt_eigenvalues : List ℚ) : Option (ℚ × ℚ) :=
  match kpt_eigenvalues.head?, kpt_eigenvalues.getLast? with
  | some first, some last =>
      some (first * HATREE_TO_EV ℚ, last * HATREE_TO_EV ℚ)
  | _, _ => none

/-- The per-k-point map of `BandStructure::energy_range`: `kptMinMax` on
every k-point, with a panic (`none`) anywhere aborting the whole
computation (Rust panics unwind, so nothing after the first one runs). -/
def kptPairs : List (List ℚ) → Option (List (ℚ × ℚ))
  | [] => some []
  | l :: rest =>
      match kptMinMax l, kptPairs rest with
      | some p, some ps => some (p :: ps)
      | _, _ => none

/-- The per-spin-channel reduction inside `BandStructure::energy_range`:
the `(min, max)` fold over the per-k-point pairs, panicking (`none`) when
the k-point list is empty (the `reduce(...).unwrap()`). -/
def kptRange (kpts : List (List ℚ)) : Option (ℚ × ℚ) :=
  match kptPairs kpts with
  | none => none
  | some [] => none
  | some (p :: ps) =>
      some (ps.foldl (fun acc curr => (min acc.1 curr.1, max acc.2 curr.2)) p)

/-- From `BandStructure::energy_range` in `fundamental/mod.rs`: computes the
per-channel ranges and, when spin polarized, combines the two channels with
`min`/`max`; panics (modelled `none`) on empty data. -/
def BandStructure.energy_range (bs : BandStructure ℚ) : Option (ℚ × ℚ) :=
  match bs.eigenvalues.map kptRange with
  | .NonPolarized e_range => e_range
  | .SpinPolarized up down =>
      match up, down with
      | some (up_min, up_max), some (down_min, down_max) =>
          some (min up_min down_min, max up_max down_max)
      | _, _ => none

/-- Angular-momentum-resolved DOS curves, from `struct PDOSResult` in
`lib.rs` (`pdos_compute`); one value per energy-grid point per channel. -/
structure PDOSResult (K : Type) where
  s : List K
  p : List K
  d : List K
  f : List K
deriving DecidableEq, Repr

/-- Pointwise addition of two equally-long rows (the `ndarray` `+`). -/
def vecAdd {K : Type} [Add K] (a b : List K) : List K :=
  List.zipWith (· + ·) a b

/-- Pointwise addition of two `PDOSResult` accumulators (the
`Array2` additions `acc + e` and `result += &kpoint_result`). -/
def addResult {K : Type} [Add K] (a b : PDOSResult K) : PDOSResult K :=
  ⟨vecAdd a.s b.s, vecAdd a.p b.p, vecAdd a.d b.d, vecAdd a.f b.f⟩

/-- The all-zero accumulator `Array2::zeros((4, energy_grid.len()))`. -/
def zeroResult {K : Type} [Zero K] (energy_grid : List K) : PDOSResult K :=
  ⟨energy_grid.map (fun _ => 0), energy_grid.map (fun _ => 0),
   energy_grid.map (fun _ => 0), energy_grid.map (fun _ => 0)⟩

/-- From `calc_spin_pdos` in `lib.rs` (`pdos_compute`), translated
line-for-line:
`norm = 1.0 / (smearing * sqrt(2.0 * PI))`,
`two_sigma_sq = 2.0 * smearing.powi(2)`, then for every k-point the
per-eigenvalue factor over the grid is
`kw * norm * exp(-0.5 * ((-d).powi(2) / two_sigma_sq))` with
`d = E_grid - eigen`; each factor row is scaled by the four channel weights
and everything is reduced by addition.  The transcendental pieces the code
takes from `libm` are parameters: `fexp` models `f64::exp` and
`sqrt_two_pi` models `(2.0 * PI).sqrt()`. -/
def calc_spin_pdos {K : Type} [Field K] (fexp : K → K) (sqrt_two_pi : K)
    (eigenvalues : List (List K))
    (pdos_weights : List (List (AngularChannels K)))
    (kpoint_weights : List K) (energy_grid : List K) (smearing : K) :
    PDOSResult K :=
  let norm := 1 / (smearing * sqrt_two_pi)
  let two_sigma_sq := 2 * smearing ^ 2
  ((eigenvalues.zip pdos_weights).zip kpoint_weights).foldl
    (fun result ((eigen_k, weights_k), kw) =>
      let factors := eigen_k.map (fun eigen =>
        energy_grid.map (fun e =>
          let d := e - eigen
          kw * norm * fexp (-(1 / 2) * ((-d) ^ 2 / two_sigma_sq))))
      let kpoint_result := (factors.zip weights_k).foldl
        (fun acc (factor_arr, am_weights) =>
          addResult acc
            ⟨factor_arr.map (· * am_weights.s),
             factor_arr.map (· * am_weights.p),
             factor_arr.map (· * am_weights.d),
             factor_arr.map (· * am_weights.f)⟩)
        (zeroResult energy_grid)
      addResult result kpoint_result)
    (zeroResult energy_grid)

/-- From `calculate_pdos` in `lib.rs` (`pdos_compute`): shifts every
eigenvalue by the channel's Fermi energy and converts Hartree to eV, then
runs `calc_spin_pdos` per spin channel; the two `map_pair` calls panic on
mismatched spin tags (modelled `none`). -/
def calculate_pdos {K : Type} [Field K] (fexp : K → K) (sqrt_two_pi : K)
    (band_structure : BandStructure K)
    (projected_weights : SpinData (List (List (AngularChannels K))))
    (energy_grid : List K) (smearing : K) : Option (SpinData (PDOSResult K)) :=
  let band_eigenvalues := band_structure.eigenvalues
  let kpoint_weights := band_structure.kpoint_weights
  let fermi_energys := band_structure.fermi_energy
  match band_eigenvalues.map_pair fermi_energys (fun kpts e_fermi =>
      kpts.map (fun eigens =>
        eigens.map (fun eigenvalue => (eigenvalue - e_fermi) * HATREE_TO_EV K))) with
  | none => none
  | some shifted =>
      shifted.map_pair projected_weights (fun eigens pdos_weights =>
        calc_spin_pdos fexp sqrt_two_pi eigens pdos_weights kpoint_weights
          energy_grid smearing)

/-- Projector selection entry, from `struct Selection` in
`projectors/config.rs` (`species` symbol plus optional ion ids). -/
structure Selection where
  species : String
  atoms : Option (List Nat)
deriving DecidableEq, Repr

/-- Projector configuration, from `struct ProjectorConfig` in
`projectors/config.rs` (the `name`/`label` metadata fields play no role in
projection and are omitted). -/
structure ProjectorConfig where
  selections : Option (List Selection)
deriving DecidableEq, Repr

/-- From `extract_selections` in `projectors/config.rs`: for every
selection, resolve the species symbol through the mapping (the `.expect`
panic on an unresolvable symbol is modelled `none`), then collect the
indices of orbital states matching the species id and, when given, one of
the listed ion ids.  The species mapping `HashMap<&str, u32>` is modelled
as a lookup function. -/
def extract_selections (selections : List Selection)
    (species_mapping : String → Option Nat)
    (orbital_states : List OrbitalState) : Option (List Nat) :=
  (selections.mapM (fun (sel : Selection) =>
    match species_mapping sel.species with
    | none => none
    | some species_id =>
        match sel.atoms with
        | some atoms =>
            some (atoms.flatMap (fun atom_id =>
              (orbital_states.enum.filterMap
                (fun ((i, state) : Nat × OrbitalState) =>
                  if state.species_id = species_id ∧ state.ion_id = atom_id
                  then some i else none))))
        | none =>
            some (orbital_states.enum.filterMap
              (fun ((i, state) : Nat × OrbitalState) =>
                if state.species_id = species_id then some i else none)))).map
    List.flatten

/-- From `sum_weights_per_eigenvalue` in `projectors/config.rs`: sums the
weights at the given orbital indices of one eigenvalue's weight row.  The
source indexes `weights[idx]` (panicking out of bounds); the model reads 0
out of bounds, and every theorem using it keeps indices in bounds. -/
def sum_weights_per_eigenvalue (indices : List Nat) (weights : List ℚ) : ℚ :=
  (indices.map (fun idx => weights.getD idx 0)).sum

/-- The selected-orbital-index computation at the start of
`ProjectorConfig::project_pdos_from_config`: `selections` go through
`extract_selections`, a missing selection list selects every orbital
(`(0..orbital_states.len()).collect()`). -/
def selectedOrbitalIds (config : ProjectorConfig)
    (species_mapping : String → Option Nat)
    (orbital_states : List OrbitalState) : Option (List Nat) :=
  match config.selections with
  | some selections =>
      extract_selections selections species_mapping orbital_states
  | none => some (List.range orbital_states.length)

/-- Angular-momentum lookup used by the projector's partition step
(`orbital_states[idx].angular_momentum`); the source panics out of bounds,
the model returns `S` there (theorems keep indices in bounds). -/
def amAt (orbital_states : List OrbitalState) (idx : Nat) : AngularMomentum :=
  (orbital_states.getD idx (OrbitalState.new 0 0 .S)).angular_momentum

/-- From `ProjectorConfig::project_pdos_from_config` in
`projectors/config.rs`: partitions the selected indices by angular momentum
and maps every (k-point, eigenvalue) weight row to its four channel sums. -/
def ProjectorConfig.project_pdos_from_config (config : ProjectorConfig)
    (species_mapping : String → Option Nat) (pdos_weights : PDOSWeights) :
    Option (SpinData (List (List (AngularChannels ℚ)))) :=
  let orbital_states := pdos_weights.orbital_states
  match selectedOrbitalIds config species_mapping orbital_states with
  | none => none
  | some selected_orbital_ids =>
      let angular_indices := fun (am : AngularMomentum) =>
        selected_orbital_ids.filter (fun idx => amAt orbital_states idx = am)
      some (pdos_weights.orbital_weights.map_on_data_of_eigenvalue
        (fun weights => AngularChannels.mk
          (sum_weights_per_eigenvalue (angular_indices .S) weights)
          (sum_weights_per_eigenvalue (angular_indices .P) weights)
          (sum_weights_per_eigenvalue (angular_indices .D) weights)
          (sum_weights_per_eigenvalue (angular_indices .F) weights)))

/-- Errors raised by the record-framing helpers in
`castep_dos_parser/src/helper.rs`.  `truncated` models a winnow
`take`/`be_u32` failure on insufficient input, `startMarkerMismatch` the
failed `verify` on the leading size marker ("record size mismatch with
expected size"), `endMarkerMismatch` the failed `verify` on the trailing
size marker ("ending record size mismatch with starting record marker
size"). -/
inductive HelpErr where
  | truncated : HelpErr
  | startMarkerMismatch : HelpErr
  | endMarkerMismatch : HelpErr
deriving DecidableEq, Repr

/-- Take `n` bytes off the stream (the winnow `take(n)` primitive): fails
without consuming when fewer than `n` bytes remain. -/
def readBytes (n : Nat) (s : List Nat) : Option (List Nat × List Nat) :=
  if n ≤ s.length then some (s.take n, s.drop n) else none

/-- Big-endian interpretation of a byte list (`u32::from_be_bytes` /
`u64` bit patterns). -/
def beBytesToNat (bytes : List Nat) : Nat :=
  bytes.foldl (fun acc b => acc * 256 + b) 0

/-- IEEE-754 binary64 value of a 64-bit pattern (`f64::from_be_bytes`), as
an exact rational.  Non-finite patterns (exponent 2047: NaN / infinity)
have no rational value and are mapped to 0; no claim in this development
exercises them. -/
def f64FromBits (n : Nat) : ℚ :=
  let sign : Nat := n / 2 ^ 63 % 2
  let expo : Nat := n / 2 ^ 52 % 2 ^ 11
  let mantissa : Nat := n % 2 ^ 52
  if expo = 2047 then 0
  else
    let mag : ℚ :=
      if expo = 0 then (mantissa : ℚ) * (2 : ℚ) ^ (-(1074 : ℤ))
      else ((2 ^ 52 + mantissa : Nat) : ℚ) * (2 : ℚ) ^ ((expo : ℤ) - 1075)
    if sign = 1 then -mag else mag

/-- From `parse_record` in `castep_dos_parser/src/helper.rs`: reads a
big-endian `u32` leading size marker `verify`-checked against
`expected_size`, takes that many payload bytes, then reads the trailing
marker `verify`-checked against the leading one.  Cursor semantics follow
winnow: a failed `verify` rewinds its own bytes, but bytes consumed by
earlier steps of the sequence stay consumed, so the error also carries the
stream position at failure. -/
def parse_record (expected_size : Nat) (s : List Nat) :
    Except (HelpErr × List Nat) (List Nat × List Nat) :=
  match readBytes 4 s with
  | none => .error (.truncated, s)
  | some (marker, s₁) =>
      if beBytesToNat marker ≠ expected_size then
        .error (.startMarkerMismatch, s)
      else
        match readBytes expected_size s₁ with
        | none => .error (.truncated, s₁)
        | some (data, s₂) =>
            match readBytes 4 s₂ with
            | none => .error (.truncated, s₂)
            | some (end_marker, s₃) =>
                if beBytesToNat end_marker ≠ expected_size then
                  .error (.endMarkerMismatch, s₂)
                else .ok (data, s₃)

/-- From `parse_scalar::<u32, 4>` in `helper.rs`: a 4-byte record read as a
big-endian `u32`. -/
def parse_scalar_u32 (s : List Nat) :
    Except (HelpErr × List Nat) (Nat × List Nat) :=
  match parse_record 4 s with
  | .error e => .error e
  | .ok (data, rest) => .ok (beBytesToNat data, rest)

/-- From `parse_scalar::<f64, 8>` in `helper.rs`: an 8-byte record read as a
big-endian `f64`. -/
def parse_scalar_f64 (s : List Nat) :
    Except (HelpErr × List Nat) (ℚ × List Nat) :=
  match parse_record 8 s with
  | .error e => .error e
  | .ok (data, rest) => .ok (f64FromBits (beBytesToNat data), rest)

/-- Fuel-indexed worker for `chunksExact`; the fuel is an upper bound on
the list length, so structural recursion on it reaches every chunk. -/
def chunksExactAux {α : Type} (n : Nat) : Nat → List α → List (List α)
  | 0, _ => []
  | fuel + 1, l =>
      if 0 < n ∧ n ≤ l.length then
        l.take n :: chunksExactAux n fuel (l.drop n)
      else []

/-- The `chunks_exact(N)` slicing used by `parse_vec` in `helper.rs`. -/
def chunksExact {α : Type} (n : Nat) (l : List α) : List (List α) :=
  chunksExactAux n l.length l

/-- From `parse_vec::<u32, 4>` in `helper.rs`: one record of `4 * len`
bytes split into `len` big-endian `u32` values. -/
def parse_vec_u32 (len : Nat) (s : List Nat) :
    Except (HelpErr × List Nat) (List Nat × List Nat) :=
  match parse_record (4 * len) s with
  | .error e => .error e
  | .ok (data, rest) => .ok ((chunksExact 4 data).map beBytesToNat, rest)

/-- From `parse_vec::<f64, 8>` in `helper.rs`: one record of `8 * len`
bytes split into `len` big-endian `f64` values. -/
def parse_vec_f64 (len : Nat) (s : List Nat) :
    Except (HelpErr × List Nat) (List ℚ × List Nat) :=
  match parse_record (8 * len) s with
  | .error e => .error e
  | .ok (data, rest) =>
      .ok ((chunksExact 8 data).map (fun c => f64FromBits (beBytesToNat c)), rest)

/-- From `peek_record` in `helper.rs`: reads the 4-byte size marker of the
next record through winnow `parse_peek`, which works on a copy of the
cursor and never consumes input. -/
def peek_record (s : List Nat) : Except (HelpErr × List Nat) Nat :=
  match readBytes 4 s with
  | none => .error (.truncated, s)
  | some (marker, _) => .ok (beBytesToNat marker)

/-- Parse errors of `pdos_weights_parser.rs` (`enum ParsingError`), plus a
distinguished `panicked` for the `unwrap` panics in the spin-major
reassembly (a Rust panic, not a `ParsingError`). -/
inductive ParseErr where
  | helper : HelpErr → ParseErr
  | numSpins : ParseErr
  | spinIndex : ParseErr
  | angularMomentum : ParseErr
  | panicked : ParseErr
deriving DecidableEq, Repr

/-- Header of a `.pdos_weights` file, from `struct Header` in
`fundamental/pdos_file/header.rs`. -/
structure Header where
  total_kpoints : Nat
  num_spins : NumSpins
  num_orbitals : Nat
  max_bands : Nat
  orbital_species : List Nat
  orbital_ion : List Nat
  orbital_am : List AngularMomentum
deriving DecidableEq, Repr

/-- From `Header::spin_polarized`. -/
def Header.spin_polarized (h : Header) : SpinPolarized :=
  match h.num_spins with
  | .one => false
  | .two => true

/-- From `Header::extract_orbital_states`: zips the three metadata vectors
into `OrbitalState` entries. -/
def Header.extract_orbital_states (h : Header) : List OrbitalState :=
  (h.orbital_species.zip (h.orbital_ion.zip h.orbital_am)).map
    (fun (species_id, ion_id, angular_momentum) =>
      OrbitalState.new species_id ion_id angular_momentum)

/-- Per-eigenvalue weight row, from `struct WeightsPerEigen` in
`fundamental/pdos_file/parsing_intermediates.rs`. -/
structure WeightsPerEigen where
  weights : List ℚ
deriving DecidableEq, Repr

/-- Per-spin block, from `struct WeightsPerSpin` in
`parsing_intermediates.rs`. -/
structure WeightsPerSpin where
  index : SpinIndex
  nbands_occ : Nat
  bands : List WeightsPerEigen
deriving DecidableEq, Repr

/-- Per-k-point block, from `struct WeightsPerKPoint` in
`parsing_intermediates.rs`. -/
structure WeightsPerKPoint where
  index : Nat
  kpoint : ℚ × ℚ × ℚ
  spins : List WeightsPerSpin
deriving DecidableEq, Repr

/-- Run a sub-parse `count` times in sequence, short-circuiting on the
first error: the `(0..count).map(...).collect::<Result<Vec<_>, _>>()`
pattern of `pdos_weights_parser.rs`. -/
def parseCountTimes {α E : Type} (p : List Nat → Except E (α × List Nat)) :
    Nat → List Nat → Except E (List α × List Nat)
  | 0, s => .ok ([], s)
  | n + 1, s =>
      match p s with
      | .error e => .error e
      | .ok (a, s₁) =>
          match parseCountTimes p n s₁ with
          | .error e => .error e
          | .ok (as, s₂) => .ok (a :: as, s₂)

/-- From `parse_weight_per_spin` in `pdos_weights_parser.rs`: spin-index
scalar (validated through `SpinIndex::try_from`, failing with
`ParsingError::SpinIndex` on values other than 1 and 2), occupied-band
count, then that many weight vectors of length `num_orbitals`. -/
def parse_weight_per_spin (header : Header) (s : List Nat) :
    Except (ParseErr × List Nat) (WeightsPerSpin × List Nat) :=
  match parse_scalar_u32 s with
  | .error (e, s') => .error (.helper e, s')
  | .ok (index, s₁) =>
      match SpinIndex.tryFrom index with
      | none => .error (.spinIndex, s₁)
      | some spin_index =>
          match parse_scalar_u32 s₁ with
          | .error (e, s') => .error (.helper e, s')
          | .ok (nbands_occ, s₂) =>
              match parseCountTimes (fun st =>
                  match parse_vec_f64 header.num_orbitals st with
                  | .error (e, s') => .error ((.helper e : ParseErr), s')
                  | .ok (weights, rest) =>
                      .ok (WeightsPerEigen.mk weights, rest)) nbands_occ s₂ with
              | .error e => .error e
              | .ok (bands, s₃) =>
                  .ok (WeightsPerSpin.mk spin_index nbands_occ bands, s₃)

/-- From `parse_kpoint` in `pdos_weights_parser.rs`: a fixed 28-byte record
(`index: u32`, three `f64` coordinates), then `num_spins` spin blocks. -/
def parse_kpoint (header : Header) (s : List Nat) :
    Except (ParseErr × List Nat) (WeightsPerKPoint × List Nat) :=
  match parse_record 28 s with
  | .error (e, s') => .error (.helper e, s')
  | .ok (kp_data, s₁) =>
      let index := beBytesToNat (kp_data.take 4)
      let kx := f64FromBits (beBytesToNat ((kp_data.drop 4).take 8))
      let ky := f64FromBits (beBytesToNat ((kp_data.drop 12).take 8))
      let kz := f64FromBits (beBytesToNat ((kp_data.drop 20).take 8))
      match parseCountTimes (parse_weight_per_spin header)
          header.num_spins.spin_count s₁ with
      | .error e => .error e
      | .ok (spins, s₂) =>
          .ok (WeightsPerKPoint.mk index (kx, ky, kz) spins, s₂)

/-- From `parse_header` in `pdos_weights_parser.rs`: four header scalars
(`num_spins` validated through `NumSpins::try_from`) and the three
orbital-metadata vectors (angular momenta validated through
`AngularMomentum::try_from`).  The `HeaderBuilder` at the end of the source
function is given every field and therefore cannot fail; the model builds
the `Header` directly. -/
def parse_header (s : List Nat) :
    Except (ParseErr × List Nat) (Header × List Nat) :=
  match parse_scalar_u32 s with
  | .error (e, s') => .error (.helper e, s')
  | .ok (total_kpoints, s₁) =>
      match parse_scalar_u32 s₁ with
      | .error (e, s') => .error (.helper e, s')
      | .ok (num_spins_raw, s₂) =>
          match NumSpins.tryFrom num_spins_raw with
          | none => .error (.numSpins, s₂)
          | some num_spins =>
              match parse_scalar_u32 s₂ with
              | .error (e, s') => .error (.helper e, s')
              | .ok (num_orbitals, s₃) =>
                  match parse_scalar_u32 s₃ with
                  | .error (e, s') => .error (.helper e, s')
                  | .ok (max_bands, s₄) =>
                      match parse_vec_u32 num_orbitals s₄ with
                      | .error (e, s') => .error (.helper e, s')
                      | .ok (orbital_species, s₅) =>
                          match parse_vec_u32 num_orbitals s₅ with
                          | .error (e, s') => .error (.helper e, s')
                          | .ok (orbital_ion, s₆) =>
                              match parse_vec_u32 num_orbitals s₆ with
                              | .error (e, s') => .error (.helper e, s')
                              | .ok (orbital_am_raw, s₇) =>
                                  match orbital_am_raw.mapM
                                      AngularMomentum.tryFrom with
                                  | none => .error (.angularMomentum, s₇)
                                  | some orbital_am =>
                                      .ok (Header.mk total_kpoints num_spins
                                        num_orbitals max_bands orbital_species
                                        orbital_ion orbital_am, s₇)

/-- The per-spin-to-per-k-point conversion closure inside
`parse_pdos_weight` (`pdos_weights_parser.rs`): every band's raw weight row
is mapped through `OrbitalWeight::new`. -/
def per_spin_to_per_kpt_data (weights_per_spin : WeightsPerSpin) :
    List (List ℚ) :=
  weights_per_spin.bands.map
    (fun weights_per_eigen => weights_per_eigen.weights.map OrbitalWeight.new)

/-- The one-spin arm of the reassembly in `parse_pdos_weight`: converts
every k-point's single spin block (`spins.first().unwrap()`, the `unwrap`
panic on a missing block modelled `none`, aborting everything after it as
a Rust panic would). -/
def collectSpinOne : List WeightsPerKPoint → Option (List (List (List ℚ)))
  | [] => some []
  | weights_per_kpoint :: rest =>
      match weights_per_kpoint.spins.head?, collectSpinOne rest with
      | some first_block, some converted =>
          some (per_spin_to_per_kpt_data first_block :: converted)
      | _, _ => none

/-- The two-spin arm of the reassembly in `parse_pdos_weight`: for every
k-point, block 0 (`spins.first().unwrap()`) and block 1
(`spins.get(1).unwrap()`) are converted as an (up, down) pair; a missing
block is a panic (`none`). -/
def collectSpinTwo :
    List WeightsPerKPoint → Option (List (List (List ℚ) × List (List ℚ)))
  | [] => some []
  | weights_per_kpoint :: rest =>
      match weights_per_kpoint.spins.head?, weights_per_kpoint.spins.get? 1,
          collectSpinTwo rest with
      | some first_block, some second_block, some converted =>
          some ((per_spin_to_per_kpt_data first_block,
                 per_spin_to_per_kpt_data second_block) :: converted)
      | _, _, _ => none

/-- The spin-major reassembly at the end of `parse_pdos_weight`: with one
spin the single block of every k-point is taken, with two spins block 0
becomes the up channel and block 1 the down channel (the `unzip`). -/
def assembleOrbitalWeights (num_spins : NumSpins)
    (kpoints : List WeightsPerKPoint) :
    Option (SpinData (List (List (List ℚ)))) :=
  match num_spins with
  | .one => (collectSpinOne kpoints).map SpinData.NonPolarized
  | .two =>
      (collectSpinTwo kpoints).map
        (fun pairs =>
          SpinData.SpinPolarized (pairs.map Prod.fst) (pairs.map Prod.snd))

/-- From `parse_pdos_weight` in `pdos_weights_parser.rs`: header, then
`total_kpoints` k-point blocks, then the spin-major reassembly into
`PDOSWeights`. -/
def parse_pdos_weight (s : List Nat) :
    Except (ParseErr × List Nat) (PDOSWeights × List Nat) :=
  match parse_header s with
  | .error e => .error e
  | .ok (header, s₁) =>
      match parseCountTimes (parse_kpoint header) header.total_kpoints s₁ with
      | .error e => .error e
      | .ok (kpoints, s₂) =>
          match assembleOrbitalWeights header.num_spins kpoints with
          | none => .error (.panicked, s₂)
          | some orbital_weights =>
              .ok (PDOSWeights.mk header.spin_polarized
                header.extract_orbital_states orbital_weights, s₂)

/-- From `parse_pdos_weight_file` in `pdos_weights_parser.rs`: speculative
flavor detection.  It first tries to read an 8-byte `f64` version record
(`.pdos_bin` flavor); on success it skips one descriptive record (size
taken from `peek_record`) and parses the body; on failure it parses the
body from wherever the failed attempt left the cursor (the Rust code
passes the same `&mut` input to both branches). -/
def parse_pdos_weight_file (s : List Nat) :
    Except (ParseErr × List Nat) (PDOSWeights × List Nat) :=
  match parse_scalar_f64 s with
  | .ok (_version, s₁) =>
      match peek_record s₁ with
      | .error (e, s') => .error (.helper e, s')
      | .ok size =>
          match parse_record size s₁ with
          | .error (e, s') => .error (.helper e, s')
          | .ok (_pdos_bin_header, s₂) => parse_pdos_weight s₂
  | .error (_, s_err) => parse_pdos_weight s_err

/-- One recognized line of the `.bands` k-point section
(`bands/parser.rs`).  The source parses raw text; the model works on a
stream of pre-tokenized lines, which is exact for this grammar because each
of its line parsers is anchored on a distinct literal prefix
("K-point ...", "Spin component 1"/"Spin component 2", and the
leading-space eigenvalue lines) and consumes exactly one line.
`otherLine` stands for any line matching none of the three patterns. -/
inductive BandLine where
  | kpointLine (index : Nat) (kx ky kz weight : ℚ) : BandLine
  | spinComponentLine (n : Nat) : BandLine
  | eigenLine (value : ℚ) : BandLine
  | otherLine : BandLine
deriving DecidableEq, Repr

/-- K-point header data, from `struct KPoint` in `bands/mod.rs`. -/
structure KPoint where
  index : Nat
  coords : ℚ × ℚ × ℚ
  weight : ℚ
deriving DecidableEq, Repr

/-- From `enum EigenvaluesPerBand` in `bands/parser.rs`. -/
inductive EigenvaluesPerBand where
  | NonPolarized (v : List ℚ) : EigenvaluesPerBand
  | SpinPolarized (v1 v2 : List ℚ) : EigenvaluesPerBand
deriving DecidableEq, Repr

/-- From `struct BandPerKPoint` in `bands/parser.rs`. -/
structure BandPerKPoint where
  kpoint : KPoint
  eigen_band : EigenvaluesPerBand
deriving DecidableEq, Repr

/-- Outcome of the k-point-block stage: `parseFailed` models a winnow
`ErrMode` parse error, `panicked` models the `eigens[1]` index-out-of-bounds
panic inside the `map` closure of `parse_band_per_kpoint`. -/
inductive BandsErr where
  | parseFailed : BandsErr
  | panicked : BandsErr
deriving DecidableEq, Repr

/-- The greedy `repeat(1.., eigenvalue-line)` of the `eigenvalues` closure
in `BandsParser::parse_band_per_kpoint`: consume eigenvalue lines while
they match. -/
def takeEigenLines : List BandLine → List ℚ × List BandLine
  | .eigenLine v :: rest =>
      let (vs, r) := takeEigenLines rest
      (v :: vs, r)
  | ls => ([], ls)

/-- The `eigenvalues` closure itself: at least one eigenvalue line. -/
def parseEigenvalues (ls : List BandLine) :
    Option (List ℚ × List BandLine) :=
  match takeEigenLines ls with
  | ([], _) => none
  | (vs, r) => some (vs, r)

/-- One "Spin component N" sub-block:
`preceded(terminated(alt(("Spin component 1", "Spin component 2")),
line_ending), eigenvalues)`; either literal is accepted wherever the
sub-block is attempted. -/
def parseSpinSub (ls : List BandLine) :
    Option (List ℚ × List BandLine) :=
  match ls with
  | .spinComponentLine n :: rest =>
      if n = 1 ∨ n = 2 then parseEigenvalues rest else none
  | _ => none

/-- The `repeat(1..=2, ...)` over spin sub-blocks: one required, a second
taken greedily when it matches (winnow rewinds the failed second
attempt). -/
def parseSpinSubs (ls : List BandLine) :
    Option (List (List ℚ) × List BandLine) :=
  match parseSpinSub ls with
  | none => none
  | some (v1, r1) =>
      match parseSpinSub r1 with
      | none => some ([v1], r1)
      | some (v2, r2) => some ([v1, v2], r2)

/-- One k-point block of `BandsParser::parse_band_per_kpoint`: the
`(kpoint, repeat(1..=2, spin sub-block))` sequence followed by the `map`
closure, which for the polarized branch reads `eigens[0]` and `eigens[1]`
(panicking when only one sub-block was parsed) and for the non-polarized
branch reads `eigens[0]`, silently discarding any second sub-block. -/
def parseKpBlock (spin_polarized : Bool) (ls : List BandLine) :
    Except BandsErr (BandPerKPoint × List BandLine) :=
  match ls with
  | .kpointLine index kx ky kz weight :: rest =>
      match parseSpinSubs rest with
      | none => .error .parseFailed
      | some (eigens, r) =>
          match spin_polarized with
          | true =>
              match eigens.get? 0, eigens.get? 1 with
              | some v1, some v2 =>
                  .ok (⟨⟨index, (kx, ky, kz), weight⟩,
                        .SpinPolarized v1 v2⟩, r)
              | _, _ => .error .panicked
          | false =>
              match eigens.get? 0 with
              | some v1 =>
                  .ok (⟨⟨index, (kx, ky, kz), weight⟩, .NonPolarized v1⟩, r)
              | none => .error .panicked
  | _ => .error .parseFailed

theorem takeEigenLines_length_le (ls : List BandLine) :
    (takeEigenLines ls).2.length ≤ ls.length := by
  induction ls with
  | nil => simp [takeEigenLines]
  | cons hd tl ih =>
      cases hd with
      | eigenLine v => simpa [takeEigenLines] using Nat.le_succ_of_le ih
      | kpointLine i a b c w => simp [takeEigenLines]
      | spinComponentLine n => simp [takeEigenLines]
      | otherLine => simp [takeEigenLines]

theorem parseEigenvalues_length_le {ls : List BandLine} {vs : List ℚ}
    {r : List BandLine} (h : parseEigenvalues ls = some (vs, r)) :
    r.length ≤ ls.length := by
  have hle := takeEigenLines_length_le ls
  unfold parseEigenvalues at h
  cases hte : takeEigenLines ls with
  | mk fst snd =>
      rw [hte] at h hle
      cases fst with
      | nil => simp at h
      | cons v vs' =>
          simp only [Option.some.injEq, Prod.mk.injEq] at h
          obtain ⟨-, rfl⟩ := h
          exact hle

theorem parseSpinSub_length_lt {ls : List BandLine} {vs : List ℚ}
    {r : List BandLine} (h : parseSpinSub ls = some (vs, r)) :
    r.length < ls.length := by
  unfold parseSpinSub at h
  cases ls with
  | nil => cases h
  | cons hd rest =>
      cases hd with
      | kpointLine i a b c w => cases h
      | eigenLine v => cases h
      | otherLine => cases h
      | spinComponentLine n =>
          by_cases hn : n = 1 ∨ n = 2
          · simp only [hn, if_pos] at h
            have := parseEigenvalues_length_le h
            simpa using Nat.lt_succ_of_le this
          · simp [hn] at h

theorem parseSpinSubs_length_lt {ls : List BandLine} {vs : List (List ℚ)}
    {r : List BandLine} (h : parseSpinSubs ls = some (vs, r)) :
    r.length < ls.length := by
  unfold parseSpinSubs at h
  cases h1 : parseSpinSub ls with
  | none => rw [h1] at h; cases h
  | some p1 =>
      obtain ⟨v1, r1⟩ := p1
      rw [h1] at h
      dsimp only at h
      have hr1 := parseSpinSub_length_lt h1
      cases h2 : parseSpinSub r1 with
      | none =>
          rw [h2] at h
          simp only [Option.some.injEq, Prod.mk.injEq] at h
          obtain ⟨-, rfl⟩ := h
          exact hr1
      | some p2 =>
          obtain ⟨v2, r2⟩ := p2
          rw [h2] at h
          simp only [Option.some.injEq, Prod.mk.injEq] at h
          obtain ⟨-, rfl⟩ := h
          exact lt_trans (parseSpinSub_length_lt h2) hr1

theorem parseKpBlock_length_lt {sp : Bool} {ls : List BandLine}
    {b : BandPerKPoint} {r : List BandLine}
    (h : parseKpBlock sp ls = .ok (b, r)) : r.length < ls.length := by
  unfold parseKpBlock at h
  cases ls with
  | nil => cases h
  | cons hd rest =>
      cases hd with
      | eigenLine v => cases h
      | otherLine => cases h
      | spinComponentLine n => cases h
      | kpointLine i a bb c w =>
          dsimp only at h
          cases hs : parseSpinSubs rest with
          | none => rw [hs] at h; cases h
          | some p =>
              obtain ⟨eigens, r'⟩ := p
              rw [hs] at h
              dsimp only at h
              have hr' := parseSpinSubs_length_lt hs
              cases sp with
              | true =>
                  cases hg0 : eigens.get? 0 with
                  | none => rw [hg0] at h; cases h
                  | some v1 =>
                      cases hg1 : eigens.get? 1 with
                      | none => rw [hg0, hg1] at h; cases h
                      | some v2 =>
                          rw [hg0, hg1] at h
                          simp only [Except.ok.injEq, Prod.mk.injEq] at h
                          obtain ⟨-, rfl⟩ := h
                          simpa using Nat.lt_succ_of_lt hr'
              | false =>
                  cases hg0 : eigens.get? 0 with
                  | none => rw [hg0] at h; cases h
                  | some v1 =>
                      rw [hg0] at h
                      simp only [Except.ok.injEq, Prod.mk.injEq] at h
                      obtain ⟨-, rfl⟩ := h
                      simpa using Nat.lt_succ_of_lt hr'

/-- The continuation of the outer `repeat(1.., ...)` over k-point blocks:
keep parsing blocks greedily; a failed attempt is rewound and ends the
repetition, a panic inside the attempt propagates. -/
def parseKpBlocksLoop (spin_polarized : Bool) (ls : List BandLine) :
    Except BandsErr (List BandPerKPoint × List BandLine) :=
  match hb : parseKpBlock spin_polarized ls with
  | .error .panicked => .error .panicked
  | .error .parseFailed => .ok ([], ls)
  | .ok (b, rest) =>
      match parseKpBlocksLoop spin_polarized rest with
      | .error e => .error e
      | .ok (bs, r) => .ok (b :: bs, r)
termination_by ls.length
decreasing_by
  exact parseKpBlock_length_lt hb

/-- From `BandsParser::parse_band_per_kpoint` in `bands/parser.rs`: the
`repeat(1.., ...)` over k-point blocks — at least one block, then greedy
repetition. -/
def parse_band_per_kpoint (spin_polarized : Bool) (ls : List BandLine) :
    Except BandsErr (List BandPerKPoint × List BandLine) :=
  match parseKpBlock spin_polarized ls with
  | .error e => .error e
  | .ok (b, rest) =>
      match parseKpBlocksLoop spin_polarized rest with
      | .error e => .error e
      | .ok (bs, r) => .ok (b :: bs, r)

deriving instance DecidableEq for Except

theorem readBytes_append (a b : List Nat) :
    readBytes a.length (a ++ b) = some (a, b) := by
  simp [readBytes, List.take_left, List.drop_left]

theorem readBytes_short {n : Nat} {s : List Nat} (h : s.length < n) :
    readBytes n s = none := by
  simp [readBytes]
  omega

theorem readBytes_ok_length {n : Nat} {s data rest : List Nat}
    (h : readBytes n s = some (data, rest)) : data.length = n := by
  unfold readBytes at h
  by_cases hle : n ≤ s.length
  · simp only [hle, if_pos] at h
    simp only [Option.some.injEq, Prod.mk.injEq] at h
    obtain ⟨rfl, -⟩ := h
    simp [List.length_take]
    omega
  · simp [hle] at h

/-- C2 (counterexample). The claim asserts
`OrbitalWeight::new(-0.0000005)` clamps to 0.0; in the code the clamp
condition is `value < -1.0e-6`, and −0.0000005 = −5e-7 is greater than
−1e-6, so the value is kept unchanged (and is not 0). -/
theorem orbital_weight_subthreshold_not_clamped :
    OrbitalWeight.new (-(1 / 2000000)) = -(1 / 2000000) ∧
    OrbitalWeight.new (-(1 / 2000000)) ≠ 0 ∧
    OrbitalWeight.fromF64 (-(1 / 2000000)) = -(1 / 2000000) := by
  refine ⟨?_, ?_, ?_⟩ <;>
    norm_num [OrbitalWeight.new, OrbitalWeight.fromF64]

/-- C2 (amended). `OrbitalWeight::new` (and the `From<f64>` conversion)
clamps a value strictly below the −1e-6 threshold to 0.0 and leaves every
value at or above the threshold — including slightly negative sub-threshold
noise such as −0.0000005 — unchanged; `OrbitalWeight::new(0.3)` stays
0.3. -/
theorem orbital_weight_clamp_behavior (value : ℚ) :
    (value < -(1 / 1000000) → OrbitalWeight.new value = 0) ∧
    (-(1 / 1000000) ≤ value → OrbitalWeight.new value = value) ∧
    OrbitalWeight.fromF64 value = OrbitalWeight.new value := by
  refine ⟨?_, ?_, ?_⟩
  · intro h
    simp only [OrbitalWeight.new]
    rw [if_pos h]
  · intro h
    simp only [OrbitalWeight.new]
    rw [if_neg (not_lt.mpr h)]
  · rfl

theorem orbital_weight_clamp_behavior_witness :
    OrbitalWeight.new (-1) = 0 ∧ OrbitalWeight.new (3 / 10) = 3 / 10 :=
  ⟨(orbital_weight_clamp_behavior (-1)).1 (by norm_num),
   (orbital_weight_clamp_behavior (3 / 10)).2.1 (by norm_num)⟩

/-- C9. `SpinData::map_pair` keeps the spin tag when the two arguments
match (NonPolarized stays NonPolarized, SpinPolarized stays SpinPolarized)
and panics (`unimplemented!()`, modelled `none`) exactly when the tags
mismatch; under the matching-tags precondition the panicking branch is
therefore unreachable. -/
theorem map_pair_tag_preservation {T U V : Type} (a : SpinData T)
    (b : SpinData U) (f : T → U → V) :
    (a.map_pair b f).map SpinData.isPolarized =
      (if a.isPolarized = b.isPolarized then some a.isPolarized else none) := by
  cases a <;> cases b <;>
    simp [SpinData.map_pair, SpinData.isPolarized]

/-- C5. Record framing in `parse_record`: when the leading marker is the
expected size, (a) a trailing marker disagreeing with the leading one fails
with the ending-size-mismatch error, (b) fewer remaining payload bytes than
the leading marker declares fail with a truncation error, and (c) a
successful record read always returns exactly as many bytes as declared —
never silently fewer. -/
theorem parse_record_framing_errors :
    (∀ (expected : Nat) (lead payload t rest : List Nat),
        lead.length = 4 → beBytesToNat lead = expected →
        payload.length = expected → t.length = 4 → beBytesToNat t ≠ expected →
        parse_record expected (lead ++ (payload ++ (t ++ rest))) =
          .error (.endMarkerMismatch, t ++ rest)) ∧
    (∀ (expected : Nat) (lead s₁ : List Nat),
        lead.length = 4 → beBytesToNat lead = expected → s₁.length < expected →
        parse_record expected (lead ++ s₁) = .error (.truncated, s₁)) ∧
    (∀ (expected : Nat) (s payload rest : List Nat),
        parse_record expected s = .ok (payload, rest) →
        payload.length = expected) := by
  refine ⟨?_, ?_, ?_⟩
  · intro expected lead payload t rest hl hlv hp ht htv
    have h1 := readBytes_append lead (payload ++ (t ++ rest))
    rw [hl] at h1
    have h2 := readBytes_append payload (t ++ rest)
    rw [hp] at h2
    have h3 := readBytes_append t rest
    rw [ht] at h3
    simp [parse_record, h1, h2, h3, hlv, htv]
  · intro expected lead s₁ hl hlv hs
    have h1 := readBytes_append lead s₁
    rw [hl] at h1
    simp [parse_record, h1, hlv, readBytes_short hs]
  · intro expected s payload rest h
    unfold parse_record at h
    cases h1 : readBytes 4 s with
    | none => rw [h1] at h; cases h
    | some p =>
        obtain ⟨marker, s₁⟩ := p
        rw [h1] at h
        dsimp only at h
        by_cases hm : beBytesToNat marker ≠ expected
        · rw [if_pos hm] at h; cases h
        · rw [if_neg hm] at h
          cases h2 : readBytes expected s₁ with
          | none => rw [h2] at h; cases h
          | some p2 =>
              obtain ⟨data, s₂⟩ := p2
              rw [h2] at h
              dsimp only at h
              cases h3 : readBytes 4 s₂ with
              | none => rw [h3] at h; cases h
              | some p3 =>
                  obtain ⟨em, s₃⟩ := p3
                  rw [h3] at h
                  dsimp only at h
                  by_cases he : beBytesToNat em ≠ expected
                  · rw [if_pos he] at h; cases h
                  · rw [if_neg he] at h
                    simp only [Except.ok.injEq, Prod.mk.injEq] at h
                    obtain ⟨rfl, -⟩ := h
                    exact readBytes_ok_length h2

theorem parse_record_framing_errors_witness :
    parse_record 1 ([0, 0, 0, 1] ++ ([7] ++ ([0, 0, 0, 2] ++ []))) =
      .error (.endMarkerMismatch, [0, 0, 0, 2] ++ []) ∧
    parse_record 5 ([0, 0, 0, 5] ++ [9, 9]) = .error (.truncated, [9, 9]) ∧
    ([7] : List Nat).length = 1 :=
  ⟨parse_record_framing_errors.1 1 [0, 0, 0, 1] [7] [0, 0, 0, 2] []
      (by decide) (by decide) (by decide) (by decide) (by decide),
   parse_record_framing_errors.2.1 5 [0, 0, 0, 5] [9, 9]
      (by decide) (by decide) (by decide),
   parse_record_framing_errors.2.2 1 [0, 0, 0, 1, 7, 0, 0, 0, 1] [7] []
      (by decide)⟩

/-- C6 (counterexample). The claim says a failed speculative parse of the
leading `f64` version record consumes no bytes.  On the stream
`[0,0,0,8] ++ eight payload bytes ++ [0,0,0,9]` the speculative
`parse_scalar::<f64,8>` fails (trailing marker 9 ≠ 8) yet leaves the cursor
12 bytes in — winnow's `verify` rewinds only the trailing marker itself —
so `parse_pdos_weight_file` goes on to parse the header from the advanced
position, observably differing from a parse at the original position. -/
theorem speculative_parse_consumes_bytes_cx :
    parse_scalar_f64 [0, 0, 0, 8, 0, 0, 0, 0, 0, 0, 0, 0, 0, 0, 0, 9] =
      .error (.endMarkerMismatch, [0, 0, 0, 9]) ∧
    ([0, 0, 0, 9] : List Nat) ≠
      [0, 0, 0, 8, 0, 0, 0, 0, 0, 0, 0, 0, 0, 0, 0, 9] ∧
    parse_pdos_weight_file [0, 0, 0, 8, 0, 0, 0, 0, 0, 0, 0, 0, 0, 0, 0, 9] =
      parse_pdos_weight [0, 0, 0, 9] ∧
    parse_pdos_weight_file [0, 0, 0, 8, 0, 0, 0, 0, 0, 0, 0, 0, 0, 0, 0, 9] ≠
      parse_pdos_weight [0, 0, 0, 8, 0, 0, 0, 0, 0, 0, 0, 0, 0, 0, 0, 9] := by
  refine ⟨?_, ?_, ?_, ?_⟩ <;> decide

/-- C6 (amended). When the speculative `f64` parse fails at its leading
size marker — the stream is shorter than 4 bytes, or the marker is not 8,
which covers every `.pdos_weights`-flavor file since their first record
declares size 4 — the failed branch consumes nothing and the header is
parsed from the original stream position; only a failure after the leading
marker (truncated payload or trailing-marker mismatch) leaves the cursor
advanced. -/
theorem speculative_parse_rewind_on_marker_mismatch (s : List Nat)
    (h : s.length < 4 ∨ beBytesToNat (s.take 4) ≠ 8) :
    (∃ e, parse_scalar_f64 s = .error (e, s)) ∧
    parse_pdos_weight_file s = parse_pdos_weight s := by
  by_cases hlen : s.length < 4
  · have h4 : readBytes 4 s = none := readBytes_short hlen
    constructor
    · exact ⟨.truncated, by simp [parse_scalar_f64, parse_record, h4]⟩
    · simp [parse_pdos_weight_file, parse_scalar_f64, parse_record, h4]
  · have hm : beBytesToNat (s.take 4) ≠ 8 := h.resolve_left hlen
    have h4 : readBytes 4 s = some (s.take 4, s.drop 4) := by
      simp [readBytes, Nat.le_of_not_lt hlen]
    constructor
    · exact ⟨.startMarkerMismatch,
        by simp [parse_scalar_f64, parse_record, h4, hm]⟩
    · simp [parse_pdos_weight_file, parse_scalar_f64, parse_record, h4, hm]

theorem speculative_parse_rewind_on_marker_mismatch_witness :
    (∃ e, parse_scalar_f64 [0, 0, 0, 4, 0, 0, 0, 1, 0, 0, 0, 4] =
        .error (e, [0, 0, 0, 4, 0, 0, 0, 1, 0, 0, 0, 4])) ∧
    parse_pdos_weight_file [0, 0, 0, 4, 0, 0, 0, 1, 0, 0, 0, 4] =
      parse_pdos_weight [0, 0, 0, 4, 0, 0, 0, 1, 0, 0, 0, 4] :=
  speculative_parse_rewind_on_marker_mismatch _ (Or.inr (by decide))

/-- The per-eigenvalue Gaussian contribution exactly as the specification
states it: `weight_kpt × (1/(σ√(2π))) × exp(−(E_grid − ε)² / (2σ²))`, with
`fexp` for `exp` and `sqrt_two_pi` for `√(2π)`.  Declared from the spec
text for comparison against `calc_spin_pdos`. -/
def spec_gaussian_kernel {K : Type} [Field K] (fexp : K → K)
    (sqrt_two_pi : K) (weight_kpt smearing e_grid eps : K) : K :=
  weight_kpt * (1 / (smearing * sqrt_two_pi)) *
    fexp (-(e_grid - eps) ^ 2 / (2 * smearing ^ 2))

theorem calc_spin_pdos_singleton {K : Type} [Field K] (fexp : K → K)
    (c σ kw E ε : K) (w : AngularChannels K) :
    calc_spin_pdos fexp c [[ε]] [[w]] [kw] [E] σ =
      ⟨[kw * (1 / (σ * c)) * fexp (-(1 / 2) * ((-(E - ε)) ^ 2 / (2 * σ ^ 2))) * w.s],
       [kw * (1 / (σ * c)) * fexp (-(1 / 2) * ((-(E - ε)) ^ 2 / (2 * σ ^ 2))) * w.p],
       [kw * (1 / (σ * c)) * fexp (-(1 / 2) * ((-(E - ε)) ^ 2 / (2 * σ ^ 2))) * w.d],
       [kw * (1 / (σ * c)) * fexp (-(1 / 2) * ((-(E - ε)) ^ 2 / (2 * σ ^ 2))) * w.f]⟩ := by
  simp [calc_spin_pdos, zeroResult, addResult, vecAdd]

/-- C1 (code bug). At a unit input (one k-point of weight 1, one eigenvalue
already shifted to 0, grid point at 1 eV, σ = 1, s-channel weight 1) the
code's accumulated s-channel contribution is
`exp(−1/4)/√(2π)` — its exponent is `−(E−ε)²/(4σ²)`, the
`-0.5 * (d² / two_sigma_sq)` of the source with `two_sigma_sq = 2σ²` —
whereas the claim's kernel `weight × (1/(σ√(2π))) × exp(−(E−ε)²/(2σ²))`
gives `exp(−1/2)/√(2π)`; the two differ.  The code contradicts its own
inline comment `kw * 1 / (ω * sqrt(2π)) * exp(-1/2 * (-d / ω)^2)`, which
matches the claim. -/
theorem calc_spin_pdos_gaussian_exponent_bug :
    (calc_spin_pdos Real.exp (Real.sqrt (2 * Real.pi)) [[0]]
        [[⟨1, 0, 0, 0⟩]] [1] [1] 1).s =
      [Real.exp (-(1 / 4)) / Real.sqrt (2 * Real.pi)] ∧
    spec_gaussian_kernel Real.exp (Real.sqrt (2 * Real.pi)) 1 1 1 0 * 1 =
      Real.exp (-(1 / 2)) / Real.sqrt (2 * Real.pi) ∧
    (calc_spin_pdos Real.exp (Real.sqrt (2 * Real.pi)) [[0]]
        [[⟨1, 0, 0, 0⟩]] [1] [1] 1).s ≠
      [spec_gaussian_kernel Real.exp (Real.sqrt (2 * Real.pi)) 1 1 1 0 * 1] := by
  have hc : Real.sqrt (2 * Real.pi) ≠ 0 :=
    ne_of_gt (Real.sqrt_pos.mpr (by positivity))
  have h1 : (calc_spin_pdos Real.exp (Real.sqrt (2 * Real.pi)) [[0]]
      [[⟨1, 0, 0, 0⟩]] [1] [1] 1).s =
      [Real.exp (-(1 / 4)) / Real.sqrt (2 * Real.pi)] := by
    rw [calc_spin_pdos_singleton]
    have he : (-(1 / 2) * ((-((1 : ℝ) - 0)) ^ 2 / (2 * (1 : ℝ) ^ 2))) =
        -(1 / 4) := by norm_num
    simp only [he]
    congr 1
    ring
  have h2 : spec_gaussian_kernel Real.exp (Real.sqrt (2 * Real.pi)) 1 1 1 0 * 1 =
      Real.exp (-(1 / 2)) / Real.sqrt (2 * Real.pi) := by
    unfold spec_gaussian_kernel
    have he : (-((1 : ℝ) - 0) ^ 2 / (2 * (1 : ℝ) ^ 2)) = -(1 / 2) := by
      norm_num
    rw [he]
    ring
  refine ⟨h1, h2, ?_⟩
  rw [h1, h2]
  intro hcontra
  have hx : Real.exp (-(1 / 4)) / Real.sqrt (2 * Real.pi) =
      Real.exp (-(1 / 2)) / Real.sqrt (2 * Real.pi) := by
    simpa using hcontra
  rw [div_eq_mul_inv, div_eq_mul_inv] at hx
  have hexp := mul_right_cancel₀ (inv_ne_zero hc) hx
  have := Real.exp_eq_exp.mp hexp
  norm_num at this

/-- C3. `project_pdos_from_config` with a resolved selection produces at
every (k-point, eigenvalue) position the `AngularChannels` whose s/p/d/f
components are the sums of the weight-row entries at the selected orbital
indices whose angular momentum matches that channel (the four index subsets
are the angular-momentum partition of the selected ids); an empty subset
sums to 0.0; and a missing (`none`) selection list selects every orbital
index — the total DOS. -/
theorem project_pdos_channel_sums (config : ProjectorConfig)
    (species_mapping : String → Option Nat) (pw : PDOSWeights) :
    (config.selections = none →
      selectedOrbitalIds config species_mapping pw.orbital_states =
        some (List.range pw.orbital_states.length)) ∧
    (∀ selected,
      selectedOrbitalIds config species_mapping pw.orbital_states =
        some selected →
      config.project_pdos_from_config species_mapping pw =
        some (pw.orbital_weights.map_on_data_of_eigenvalue (fun weights =>
          AngularChannels.mk
            (sum_weights_per_eigenvalue
              (selected.filter (fun idx => amAt pw.orbital_states idx = .S))
              weights)
            (sum_weights_per_eigenvalue
              (selected.filter (fun idx => amAt pw.orbital_states idx = .P))
              weights)
            (sum_weights_per_eigenvalue
              (selected.filter (fun idx => amAt pw.orbital_states idx = .D))
              weights)
            (sum_weights_per_eigenvalue
              (selected.filter (fun idx => amAt pw.orbital_states idx = .F))
              weights)))) ∧
    (∀ weights : List ℚ, sum_weights_per_eigenvalue [] weights = 0) := by
  refine ⟨?_, ?_, ?_⟩
  · intro h
    simp [selectedOrbitalIds, h]
  · intro selected h
    simp [ProjectorConfig.project_pdos_from_config, h]
  · intro weights
    simp [sum_weights_per_eigenvalue]

theorem project_pdos_channel_sums_witness :
    selectedOrbitalIds (ProjectorConfig.mk (some [Selection.mk "A" none]))
      (fun sym => if sym = "A" then some 1 else none)
      [OrbitalState.new 1 1 .S, OrbitalState.new 1 1 .P] = some [0, 1] ∧
    ProjectorConfig.project_pdos_from_config
      (ProjectorConfig.mk (some [Selection.mk "A" none]))
      (fun sym => if sym = "A" then some 1 else none)
      (PDOSWeights.mk false [OrbitalState.new 1 1 .S, OrbitalState.new 1 1 .P]
        (.NonPolarized [[[1, 2]]])) =
      some (.NonPolarized [[AngularChannels.mk 1 2 0 0]]) := by
  have hsel : selectedOrbitalIds
      (ProjectorConfig.mk (some [Selection.mk "A" none]))
      (fun sym => if sym = "A" then some 1 else none)
      [OrbitalState.new 1 1 .S, OrbitalState.new 1 1 .P] = some [0, 1] := by
    decide
  refine ⟨hsel, ?_⟩
  have h := (project_pdos_channel_sums
      (ProjectorConfig.mk (some [Selection.mk "A" none]))
      (fun sym => if sym = "A" then some 1 else none)
      (PDOSWeights.mk false [OrbitalState.new 1 1 .S, OrbitalState.new 1 1 .P]
        (.NonPolarized [[[1, 2]]]))).2.1 [0, 1] hsel
  rw [h]
  simp [SpinData.map_on_data_of_eigenvalue, map_for_values_of_eigen,
    sum_weights_per_eigenvalue, amAt, OrbitalState.new]

/-- C7 (counterexample). The claim says a k-point block whose "Spin
component" sub-block count deviates from the SpinMode's channel count makes
parsing abort with a labeled parse error.  Instead: a non-polarized parse
(channel count 1) of a block with TWO sub-blocks succeeds silently,
discarding the second sub-block; and a polarized parse (channel count 2) of
a block with ONE sub-block fails with the `eigens[1]` index-out-of-bounds
panic, not a labeled parse error. -/
theorem spin_subblock_count_not_enforced_cx :
    parse_band_per_kpoint false
      [.kpointLine 1 0 0 0 1, .spinComponentLine 1, .eigenLine 1,
       .spinComponentLine 2, .eigenLine 2] =
      .ok ([⟨⟨1, (0, 0, 0), 1⟩, .NonPolarized [1]⟩], []) ∧
    parse_band_per_kpoint true
      [.kpointLine 1 0 0 0 1, .spinComponentLine 1, .eigenLine 1] =
      .error .panicked := by
  constructor <;>
    simp [parse_band_per_kpoint, parseKpBlocksLoop, parseKpBlock,
      parseSpinSubs, parseSpinSub, parseEigenvalues, takeEigenLines]

theorem parseKpBlock_true_shape {ls : List BandLine} {b : BandPerKPoint}
    {rest : List BandLine} (h : parseKpBlock true ls = .ok (b, rest)) :
    ∃ v1 v2, b.eigen_band = .SpinPolarized v1 v2 := by
  unfold parseKpBlock at h
  split at h
  · split at h
    · cases h
    · dsimp only at h
      split at h
      · simp only [Except.ok.injEq, Prod.mk.injEq] at h
        obtain ⟨rfl, -⟩ := h
        exact ⟨_, _, rfl⟩
      · cases h
  · cases h

theorem parseKpBlocksLoop_forall {sp : Bool} (P : BandPerKPoint → Prop)
    (hP : ∀ ls b rest, parseKpBlock sp ls = .ok (b, rest) → P b) :
    ∀ (ls : List BandLine) (bs : List BandPerKPoint) (r : List BandLine),
      parseKpBlocksLoop sp ls = .ok (bs, r) → ∀ b ∈ bs, P b := by
  suffices h : ∀ (n : Nat) (ls : List BandLine), ls.length ≤ n →
      ∀ bs r, parseKpBlocksLoop sp ls = .ok (bs, r) → ∀ b ∈ bs, P b by
    intro ls bs r hp
    exact h ls.length ls le_rfl bs r hp
  intro n
  induction n with
  | zero =>
      intro ls hlen bs r hp
      have hnil : ls = [] := List.length_eq_zero.mp (Nat.le_zero.mp hlen)
      subst hnil
      rw [parseKpBlocksLoop] at hp
      simp only [parseKpBlock] at hp
      simp only [Except.ok.injEq, Prod.mk.injEq] at hp
      obtain ⟨rfl, -⟩ := hp
      intro b hb
      cases hb
  | succ n ih =>
      intro ls hlen bs r hp
      rw [parseKpBlocksLoop] at hp
      split at hp
      · cases hp
      · simp only [Except.ok.injEq, Prod.mk.injEq] at hp
        obtain ⟨rfl, -⟩ := hp
        intro b hb
        cases hb
      · rename_i b₀ rest hblk
        cases hrec : parseKpBlocksLoop sp rest with
        | error e => rw [hrec] at hp; cases hp
        | ok p =>
            obtain ⟨bs', r'⟩ := p
            rw [hrec] at hp
            simp only [Except.ok.injEq, Prod.mk.injEq] at hp
            obtain ⟨rfl, -⟩ := hp
            intro b hb
            rcases List.mem_cons.mp hb with rfl | hb'
            · exact hP _ _ _ hblk
            · have hlt := parseKpBlock_length_lt hblk
              exact ih rest (by omega) bs' r' hrec b hb'

/-- C7 (amended). The sub-block grammar is `repeat(1..=2)` independent of
the SpinMode: (a) every block of a successful polarized parse carries two
spin channels (so a polarized success does consume exactly two sub-blocks
per block); (b) a polarized block whose greedy sub-block repetition
matched only one sub-block is rejected by an `eigens[1]`
index-out-of-bounds panic, not a labeled parse error; (c) a non-polarized
block with two sub-blocks is accepted silently, keeping only the first
sub-block's eigenvalues. -/
theorem spin_subblock_deviation_behavior :
    (∀ (ls : List BandLine) (bs : List BandPerKPoint) (r : List BandLine),
        parse_band_per_kpoint true ls = .ok (bs, r) →
        ∀ b ∈ bs, ∃ v1 v2, b.eigen_band = .SpinPolarized v1 v2) ∧
    (∀ (index : Nat) (kx ky kz weight : ℚ) (rest : List BandLine)
        (v : List ℚ) (r' : List BandLine),
        parseSpinSubs rest = some ([v], r') →
        parseKpBlock true (.kpointLine index kx ky kz weight :: rest) =
          .error .panicked) ∧
    (∀ (index : Nat) (kx ky kz weight : ℚ) (rest : List BandLine)
        (v1 v2 : List ℚ) (r' : List BandLine),
        parseSpinSubs rest = some ([v1, v2], r') →
        parseKpBlock false (.kpointLine index kx ky kz weight :: rest) =
          .ok (⟨⟨index, (kx, ky, kz), weight⟩, .NonPolarized v1⟩, r')) := by
  refine ⟨?_, ?_, ?_⟩
  · intro ls bs r hp
    unfold parse_band_per_kpoint at hp
    cases hblk : parseKpBlock true ls with
    | error e => rw [hblk] at hp; cases hp
    | ok p =>
        obtain ⟨b₀, rest⟩ := p
        rw [hblk] at hp
        dsimp only at hp
        cases hrec : parseKpBlocksLoop true rest with
        | error e => rw [hrec] at hp; cases hp
        | ok p2 =>
            obtain ⟨bs', r'⟩ := p2
            rw [hrec] at hp
            simp only [Except.ok.injEq, Prod.mk.injEq] at hp
            obtain ⟨rfl, -⟩ := hp
            intro b hb
            rcases List.mem_cons.mp hb with rfl | hb'
            · exact parseKpBlock_true_shape hblk
            · exact parseKpBlocksLoop_forall _
                (fun _ _ _ h => parseKpBlock_true_shape h) rest bs' r' hrec
                b hb'
  · intro index kx ky kz weight rest v r' hs
    simp [parseKpBlock, hs]
  · intro index kx ky kz weight rest v1 v2 r' hs
    simp [parseKpBlock, hs]

theorem spin_subblock_deviation_behavior_witness :
    (∃ v1 v2, (BandPerKPoint.mk ⟨1, (0, 0, 0), 1⟩
        (.SpinPolarized [1] [2])).eigen_band = .SpinPolarized v1 v2) ∧
    parseKpBlock true
      [.kpointLine 1 0 0 0 1, .spinComponentLine 1, .eigenLine 1] =
      .error .panicked ∧
    parseKpBlock false
      [.kpointLine 1 0 0 0 1, .spinComponentLine 1, .eigenLine 1,
       .spinComponentLine 2, .eigenLine 2] =
      .ok (⟨⟨1, (0, 0, 0), 1⟩, .NonPolarized [1]⟩, []) := by
  refine ⟨?_, ?_, ?_⟩
  · exact spin_subblock_deviation_behavior.1
      [.kpointLine 1 0 0 0 1, .spinComponentLine 1, .eigenLine 1,
       .spinComponentLine 2, .eigenLine 2]
      [⟨⟨1, (0, 0, 0), 1⟩, .SpinPolarized [1] [2]⟩] []
      (by simp [parse_band_per_kpoint, parseKpBlocksLoop, parseKpBlock,
        parseSpinSubs, parseSpinSub, parseEigenvalues, takeEigenLines])
      _ (by simp)
  · exact spin_subblock_deviation_behavior.2.1 1 0 0 0 1
      [.spinComponentLine 1, .eigenLine 1] [1] []
      (by simp [parseSpinSubs, parseSpinSub, parseEigenvalues,
        takeEigenLines])
  · exact spin_subblock_deviation_behavior.2.2 1 0 0 0 1
      [.spinComponentLine 1, .eigenLine 1, .spinComponentLine 2,
       .eigenLine 2] [1] [2] []
      (by simp [parseSpinSubs, parseSpinSub, parseEigenvalues,
        takeEigenLines])

/-- Spec-side global minimum of a list of eigenvalues (`none` when
empty). -/
def globalMin? (l : List ℚ) : Option ℚ :=
  match l with
  | [] => none
  | x :: xs => some (xs.foldl min x)

/-- Spec-side global maximum of a list of eigenvalues (`none` when
empty). -/
def globalMax? (l : List ℚ) : Option ℚ :=
  match l with
  | [] => none
  | x :: xs => some (xs.foldl max x)

/-- Every eigenvalue of a band structure, over all k-points and, when
polarized, both spin channels. -/
def allEigens (bs : BandStructure ℚ) : List ℚ :=
  match bs.eigenvalues with
  | .NonPolarized kpts => kpts.flatten
  | .SpinPolarized up down => up.flatten ++ down.flatten

/-- Well-formedness of one eigenvalue channel as the claim assumes it:
a non-empty k-point list whose per-k-point eigenvalue lists are all
non-empty and sorted non-decreasingly. -/
def chanOk (kpts : List (List ℚ)) : Prop :=
  kpts ≠ [] ∧ ∀ l ∈ kpts, l ≠ [] ∧ l.Chain' (· ≤ ·)

/-- Channel-wise well-formedness of the eigenvalue data. -/
def eigOk : SpinData (List (List ℚ)) → Prop
  | .NonPolarized kpts => chanOk kpts
  | .SpinPolarized up down => chanOk up ∧ chanOk down

/-- Degenerate eigenvalue data: an empty k-point list or an empty
per-k-point eigenvalue list in some channel (the panic cases of
`energy_range`). -/
def eigHasEmpty : SpinData (List (List ℚ)) → Prop
  | .NonPolarized kpts => kpts = [] ∨ ∃ l ∈ kpts, l = []
  | .SpinPolarized up down =>
      (up = [] ∨ ∃ l ∈ up, l = []) ∨ (down = [] ∨ ∃ l ∈ down, l = [])

theorem foldl_min_comm (a b : ℚ) (l : List ℚ) :
    l.foldl min (min a b) = min a (l.foldl min b) := by
  induction l generalizing b with
  | nil => simp
  | cons c cs ih =>
      simp only [List.foldl_cons]
      rw [min_assoc]
      exact ih (min b c)

theorem foldl_max_comm (a b : ℚ) (l : List ℚ) :
    l.foldl max (max a b) = max a (l.foldl max b) := by
  induction l generalizing b with
  | nil => simp
  | cons c cs ih =>
      simp only [List.foldl_cons]
      rw [max_assoc]
      exact ih (max b c)

theorem foldl_min_of_le (x : ℚ) (xs : List ℚ) (h : ∀ y ∈ xs, x ≤ y) :
    xs.foldl min x = x := by
  induction xs with
  | nil => rfl
  | cons y ys ih =>
      simp only [List.foldl_cons]
      rw [min_eq_left (h y (by simp))]
      exact ih (fun z hz => h z (by simp [hz]))

theorem foldl_max_getLastD (x : ℚ) (xs : List ℚ)
    (h : (x :: xs).Chain' (· ≤ ·)) : xs.foldl max x = xs.getLastD x := by
  induction xs generalizing x with
  | nil => rfl
  | cons y ys ih =>
      simp only [List.foldl_cons, List.getLastD_cons]
      obtain ⟨hxy, htail⟩ := List.chain'_cons.mp h
      rw [max_eq_right hxy]
      exact ih y htail

theorem getLast?_cons_getLastD (x : ℚ) (xs : List ℚ) :
    (x :: xs).getLast? = some (xs.getLastD x) := by
  induction xs generalizing x with
  | nil => rfl
  | cons y ys ih =>
      rw [List.getLast?_cons_cons, ih y, List.getLastD_cons]

theorem globalMin?_sorted (l : List ℚ) (h : l.Chain' (· ≤ ·)) :
    globalMin? l = l.head? := by
  cases l with
  | nil => rfl
  | cons x xs =>
      have hpair := List.chain'_iff_pairwise.mp h
      have hx : ∀ y ∈ xs, x ≤ y := (List.pairwise_cons.mp hpair).1
      simp [globalMin?, foldl_min_of_le x xs hx]

theorem globalMax?_sorted (l : List ℚ) (h : l.Chain' (· ≤ ·)) :
    globalMax? l = l.getLast? := by
  cases l with
  | nil => rfl
  | cons x xs =>
      rw [getLast?_cons_getLastD]
      simp [globalMax?, foldl_max_getLastD x xs h]

theorem globalMin?_append (l₁ l₂ : List ℚ) :
    globalMin? (l₁ ++ l₂) =
      match globalMin? l₁, globalMin? l₂ with
      | none, r => r
      | some a, none => some a
      | some a, some b => some (min a b) := by
  cases l₁ with
  | nil => cases l₂ <;> simp [globalMin?]
  | cons x xs =>
      cases l₂ with
      | nil => simp [globalMin?]
      | cons y ys =>
          simp only [globalMin?, List.cons_append, List.foldl_append,
            List.foldl_cons]
          rw [foldl_min_comm]

theorem globalMax?_append (l₁ l₂ : List ℚ) :
    globalMax? (l₁ ++ l₂) =
      match globalMax? l₁, globalMax? l₂ with
      | none, r => r
      | some a, none => some a
      | some a, some b => some (max a b) := by
  cases l₁ with
  | nil => cases l₂ <;> simp [globalMax?]
  | cons x xs =>
      cases l₂ with
      | nil => simp [globalMax?]
      | cons y ys =>
          simp only [globalMax?, List.cons_append, List.foldl_append,
            List.foldl_cons]
          rw [foldl_max_comm]

theorem foldl_min_mem (x : ℚ) (xs : List ℚ) : xs.foldl min x ∈ x :: xs := by
  induction xs generalizing x with
  | nil => simp
  | cons y ys ih =>
      simp only [List.foldl_cons]
      rcases min_choice x y with h | h <;> rw [h]
      · have hx := ih x
        rcases List.mem_cons.mp hx with h' | h' <;> simp [h']
      · have hy := ih y
        rcases List.mem_cons.mp hy with h' | h' <;> simp [h']

theorem foldl_min_le_all (x : ℚ) (xs : List ℚ) :
    ∀ a ∈ x :: xs, xs.foldl min x ≤ a := by
  induction xs generalizing x with
  | nil => simp
  | cons y ys ih =>
      intro a ha
      simp only [List.foldl_cons]
      rcases List.mem_cons.mp ha with h1 | ha'
      · rw [h1]
        exact le_trans (ih (min x y) (min x y) (by simp)) (min_le_left _ _)
      · rcases List.mem_cons.mp ha' with h2 | ha''
        · rw [h2]
          exact le_trans (ih (min x y) (min x y) (by simp)) (min_le_right _ _)
        · exact ih (min x y) a (by simp [ha''])

theorem foldl_max_mem (x : ℚ) (xs : List ℚ) : xs.foldl max x ∈ x :: xs := by
  induction xs generalizing x with
  | nil => simp
  | cons y ys ih =>
      simp only [List.foldl_cons]
      rcases max_choice x y with h | h <;> rw [h]
      · have hx := ih x
        rcases List.mem_cons.mp hx with h' | h' <;> simp [h']
      · have hy := ih y
        rcases List.mem_cons.mp hy with h' | h' <;> simp [h']

theorem foldl_max_ge_all (x : ℚ) (xs : List ℚ) :
    ∀ a ∈ x :: xs, a ≤ xs.foldl max x := by
  induction xs generalizing x with
  | nil => simp
  | cons y ys ih =>
      intro a ha
      simp only [List.foldl_cons]
      rcases List.mem_cons.mp ha with h1 | ha'
      · rw [h1]
        exact le_trans (le_max_left x y) (ih (max x y) (max x y) (by simp))
      · rcases List.mem_cons.mp ha' with h2 | ha''
        · rw [h2]
          exact le_trans (le_max_right x y) (ih (max x y) (max x y) (by simp))
        · exact ih (max x y) a (by simp [ha''])

theorem globalMin?_is_min {l : List ℚ} {m : ℚ} (h : globalMin? l = some m) :
    m ∈ l ∧ ∀ x ∈ l, m ≤ x := by
  cases l with
  | nil => cases h
  | cons x xs =>
      simp only [globalMin?, Option.some.injEq] at h
      subst h
      exact ⟨foldl_min_mem x xs, foldl_min_le_all x xs⟩

theorem globalMax?_is_max {l : List ℚ} {M : ℚ} (h : globalMax? l = some M) :
    M ∈ l ∧ ∀ x ∈ l, x ≤ M := by
  cases l with
  | nil => cases h
  | cons x xs =>
      simp only [globalMax?, Option.some.injEq] at h
      subst h
      exact ⟨foldl_max_mem x xs, foldl_max_ge_all x xs⟩

theorem hartree_pos : (0 : ℚ) < HATREE_TO_EV ℚ := by
  norm_num [HATREE_TO_EV]

theorem min_mul_right_pos {a b c : ℚ} (hc : 0 < c) :
    min (a * c) (b * c) = min a b * c := by
  rcases le_total a b with h | h
  · rw [min_eq_left h, min_eq_left (mul_le_mul_of_nonneg_right h hc.le)]
  · rw [min_eq_right h, min_eq_right (mul_le_mul_of_nonneg_right h hc.le)]

theorem max_mul_right_pos {a b c : ℚ} (hc : 0 < c) :
    max (a * c) (b * c) = max a b * c := by
  rcases le_total a b with h | h
  · rw [max_eq_right h, max_eq_right (mul_le_mul_of_nonneg_right h hc.le)]
  · rw [max_eq_left h, max_eq_left (mul_le_mul_of_nonneg_right h hc.le)]

theorem foldl_minmax_comm (p q : ℚ × ℚ) (ps : List (ℚ × ℚ)) :
    ps.foldl (fun acc curr => (min acc.1 curr.1, max acc.2 curr.2))
        (min p.1 q.1, max p.2 q.2) =
      (min p.1 (ps.foldl (fun acc curr =>
          (min acc.1 curr.1, max acc.2 curr.2)) q).1,
       max p.2 (ps.foldl (fun acc curr =>
          (min acc.1 curr.1, max acc.2 curr.2)) q).2) := by
  induction ps generalizing q with
  | nil => simp
  | cons r rs ih =>
      simp only [List.foldl_cons]
      have h1 : min (min p.1 q.1) r.1 = min p.1 (min q.1 r.1) := min_assoc _ _ _
      have h2 : max (max p.2 q.2) r.2 = max p.2 (max q.2 r.2) := max_assoc _ _ _
      rw [h1, h2]
      exact ih (min q.1 r.1, max q.2 r.2)

theorem kptPairs_none {kpts : List (List ℚ)}
    (h : ∃ l ∈ kpts, kptMinMax l = none) : kptPairs kpts = none := by
  induction kpts with
  | nil => simp at h
  | cons b bs ih =>
      obtain ⟨a, ha, hfa⟩ := h
      rcases List.mem_cons.mp ha with h1 | h2
      · rw [h1] at hfa
        simp [kptPairs, hfa]
      · rw [kptPairs, ih ⟨a, h2, hfa⟩]
        cases kptMinMax b <;> rfl

theorem kptRange_none {kpts : List (List ℚ)}
    (h : kpts = [] ∨ ∃ l ∈ kpts, l = []) : kptRange kpts = none := by
  rcases h with rfl | ⟨l, hl, rfl⟩
  · rfl
  · have hnone : kptMinMax ([] : List ℚ) = none := rfl
    rw [kptRange, kptPairs_none ⟨[], hl, hnone⟩]

theorem kptRange_sorted :
    ∀ (kpts : List (List ℚ)), kpts ≠ [] →
      (∀ l ∈ kpts, l ≠ [] ∧ l.Chain' (· ≤ ·)) →
      ∃ m M, globalMin? kpts.flatten = some m ∧
        globalMax? kpts.flatten = some M ∧
        kptRange kpts = some (m * HATREE_TO_EV ℚ, M * HATREE_TO_EV ℚ) := by
  intro kpts
  induction kpts with
  | nil => intro h; exact absurd rfl h
  | cons l rest ih =>
      intro _ hall
      obtain ⟨hlne, hlsort⟩ := hall l (by simp)
      obtain ⟨x, xs, rfl⟩ : ∃ x xs, l = x :: xs := by
        cases l with
        | nil => exact absurd rfl hlne
        | cons a as => exact ⟨a, as, rfl⟩
      have hminHead : globalMin? (x :: xs) = some x := by
        rw [globalMin?_sorted _ hlsort]; rfl
      have hlast := getLast?_cons_getLastD x xs
      have hmaxLast : globalMax? (x :: xs) = some (xs.getLastD x) := by
        rw [globalMax?_sorted _ hlsort, hlast]
      have hkpt : kptMinMax (x :: xs) =
          some (x * HATREE_TO_EV ℚ, xs.getLastD x * HATREE_TO_EV ℚ) := by
        simp [kptMinMax, hlast]
      cases rest with
      | nil =>
          refine ⟨x, xs.getLastD x, ?_, ?_, ?_⟩
          · simpa using hminHead
          · simpa using hmaxLast
          · simp [kptRange, kptPairs, hkpt]
      | cons l₁ rest' =>
          obtain ⟨m', M', hm', hM', hkr⟩ := ih (by simp)
            (fun l hl => hall l (by simp [hl]))
          unfold kptRange at hkr
          cases hmap : kptPairs (l₁ :: rest') with
          | none => rw [hmap] at hkr; cases hkr
          | some ps =>
              rw [hmap] at hkr
              cases ps with
              | nil => cases hkr
              | cons p ps' =>
                  dsimp only at hkr
                  simp only [Option.some.injEq] at hkr
                  refine ⟨min x m', max (xs.getLastD x) M', ?_, ?_, ?_⟩
                  · rw [List.flatten_cons, globalMin?_append, hminHead, hm']
                  · rw [List.flatten_cons, globalMax?_append, hmaxLast, hM']
                  · unfold kptRange kptPairs
                    rw [hkpt, hmap]
                    dsimp only
                    rw [List.foldl_cons]
                    have hcomm := foldl_minmax_comm
                      (x * HATREE_TO_EV ℚ, xs.getLastD x * HATREE_TO_EV ℚ)
                      p ps'
                    dsimp only at hcomm
                    rw [hcomm, hkr]
                    rw [min_mul_right_pos hartree_pos,
                      max_mul_right_pos hartree_pos]

/-- C10. When every spin channel has a non-empty k-point list whose
per-k-point eigenvalue lists are non-empty and sorted non-decreasingly,
`BandStructure::energy_range` returns exactly
`(global minimum eigenvalue × 27.211396641308,
  global maximum eigenvalue × 27.211396641308)` over all k-points and, when
spin polarized, over both channels — even though it only reads the first
and last eigenvalue of each k-point; and with an empty k-point list or an
empty eigenvalue list it panics (modelled `none`). -/
theorem energy_range_minmax (bs : BandStructure ℚ) :
    (eigOk bs.eigenvalues →
      ∃ m M, globalMin? (allEigens bs) = some m ∧
        globalMax? (allEigens bs) = some M ∧
        m ∈ allEigens bs ∧ M ∈ allEigens bs ∧
        (∀ x ∈ allEigens bs, m ≤ x ∧ x ≤ M) ∧
        bs.energy_range =
          some (m * HATREE_TO_EV ℚ, M * HATREE_TO_EV ℚ)) ∧
    (eigHasEmpty bs.eigenvalues → bs.energy_range = none) := by
  constructor
  · intro hok
    cases heig : bs.eigenvalues with
    | NonPolarized kpts =>
        rw [heig] at hok
        obtain ⟨hne, hall⟩ := hok
        obtain ⟨m, M, hm, hM, hkr⟩ := kptRange_sorted kpts hne hall
        have hall_eigens : allEigens bs = kpts.flatten := by
          rw [allEigens, heig]
        obtain ⟨hmmem, hmle⟩ := globalMin?_is_min hm
        obtain ⟨hMmem, hMge⟩ := globalMax?_is_max hM
        refine ⟨m, M, ?_, ?_, ?_, ?_, ?_, ?_⟩
        · rw [hall_eigens]; exact hm
        · rw [hall_eigens]; exact hM
        · rw [hall_eigens]; exact hmmem
        · rw [hall_eigens]; exact hMmem
        · rw [hall_eigens]; exact fun x hx => ⟨hmle x hx, hMge x hx⟩
        · rw [BandStructure.energy_range, heig]
          simp only [SpinData.map]
          exact hkr
    | SpinPolarized up down =>
        rw [heig] at hok
        obtain ⟨⟨hneU, hallU⟩, hneD, hallD⟩ := hok
        obtain ⟨m₁, M₁, hm₁, hM₁, hkr₁⟩ := kptRange_sorted up hneU hallU
        obtain ⟨m₂, M₂, hm₂, hM₂, hkr₂⟩ := kptRange_sorted down hneD hallD
        have hall_eigens : allEigens bs = up.flatten ++ down.flatten := by
          rw [allEigens, heig]
        have hgmin : globalMin? (up.flatten ++ down.flatten) =
            some (min m₁ m₂) := by
          rw [globalMin?_append, hm₁, hm₂]
        have hgmax : globalMax? (up.flatten ++ down.flatten) =
            some (max M₁ M₂) := by
          rw [globalMax?_append, hM₁, hM₂]
        obtain ⟨hmmem, hmle⟩ := globalMin?_is_min hgmin
        obtain ⟨hMmem, hMge⟩ := globalMax?_is_max hgmax
        refine ⟨min m₁ m₂, max M₁ M₂, ?_, ?_, ?_, ?_, ?_, ?_⟩
        · rw [hall_eigens]; exact hgmin
        · rw [hall_eigens]; exact hgmax
        · rw [hall_eigens]; exact hmmem
        · rw [hall_eigens]; exact hMmem
        · rw [hall_eigens]; exact fun x hx => ⟨hmle x hx, hMge x hx⟩
        · rw [BandStructure.energy_range, heig]
          simp only [SpinData.map]
          rw [hkr₁, hkr₂]
          dsimp only
          rw [min_mul_right_pos hartree_pos, max_mul_right_pos hartree_pos]
  · intro hemp
    cases heig : bs.eigenvalues with
    | NonPolarized kpts =>
        rw [heig] at hemp
        rw [BandStructure.energy_range, heig]
        simp only [SpinData.map]
        exact kptRange_none hemp
    | SpinPolarized up down =>
        rw [heig] at hemp
        rw [BandStructure.energy_range, heig]
        simp only [SpinData.map]
        rcases hemp with hup | hdown
        · rw [kptRange_none hup]
        · rw [kptRange_none hdown]
          cases kptRange up <;> rfl

theorem energy_range_minmax_witness :
    eigOk (BandStructure.mk false (.NonPolarized 0) [1]
      (.NonPolarized [[1, 2]])).eigenvalues ∧
    ∃ m M,
      globalMin? (allEigens (BandStructure.mk false (.NonPolarized 0) [1]
        (.NonPolarized [[1, 2]]))) = some m ∧
      globalMax? (allEigens (BandStructure.mk false (.NonPolarized 0) [1]
        (.NonPolarized [[1, 2]]))) = some M ∧
      m ∈ allEigens (BandStructure.mk false (.NonPolarized 0) [1]
        (.NonPolarized [[1, 2]])) ∧
      M ∈ allEigens (BandStructure.mk false (.NonPolarized 0) [1]
        (.NonPolarized [[1, 2]])) ∧
      (∀ x ∈ allEigens (BandStructure.mk false (.NonPolarized 0) [1]
        (.NonPolarized [[1, 2]])), m ≤ x ∧ x ≤ M) ∧
      (BandStructure.mk false (.NonPolarized 0) [1]
        (.NonPolarized [[1, 2]])).energy_range =
        some (m * HATREE_TO_EV ℚ, M * HATREE_TO_EV ℚ) := by
  have hok : eigOk (BandStructure.mk false (.NonPolarized 0) [1]
      (.NonPolarized [[1, 2]])).eigenvalues := by
    refine ⟨by simp, ?_⟩
    intro l hl
    simp only [List.mem_singleton] at hl
    subst hl
    exact ⟨by simp, by norm_num⟩
  exact ⟨hok, (energy_range_minmax _).1 hok⟩

theorem parseCountTimes_length {α E : Type}
    (p : List Nat → Except E (α × List Nat)) :
    ∀ (n : Nat) (s : List Nat) (as : List α) (s' : List Nat),
      parseCountTimes p n s = .ok (as, s') → as.length = n := by
  intro n
  induction n with
  | zero =>
      intro s as s' h
      simp only [parseCountTimes, Except.ok.injEq, Prod.mk.injEq] at h
      obtain ⟨rfl, -⟩ := h
      rfl
  | succ n ih =>
      intro s as s' h
      unfold parseCountTimes at h
      cases hp : p s with
      | error e => rw [hp] at h; cases h
      | ok pa =>
          obtain ⟨a, s₁⟩ := pa
          rw [hp] at h
          dsimp only at h
          cases hrec : parseCountTimes p n s₁ with
          | error e => rw [hrec] at h; cases h
          | ok pas =>
              obtain ⟨as', s₂⟩ := pas
              rw [hrec] at h
              simp only [Except.ok.injEq, Prod.mk.injEq] at h
              obtain ⟨rfl, -⟩ := h
              simp [ih s₁ as' s₂ hrec]

theorem parseCountTimes_forall {α E : Type}
    (p : List Nat → Except E (α × List Nat)) (Q : α → Prop)
    (hp : ∀ s a s', p s = .ok (a, s') → Q a) :
    ∀ (n : Nat) (s : List Nat) (as : List α) (s' : List Nat),
      parseCountTimes p n s = .ok (as, s') → ∀ a ∈ as, Q a := by
  intro n
  induction n with
  | zero =>
      intro s as s' h
      simp only [parseCountTimes, Except.ok.injEq, Prod.mk.injEq] at h
      obtain ⟨rfl, -⟩ := h
      intro a ha
      cases ha
  | succ n ih =>
      intro s as s' h
      unfold parseCountTimes at h
      cases hps : p s with
      | error e => rw [hps] at h; cases h
      | ok pa =>
          obtain ⟨a₀, s₁⟩ := pa
          rw [hps] at h
          dsimp only at h
          cases hrec : parseCountTimes p n s₁ with
          | error e => rw [hrec] at h; cases h
          | ok pas =>
              obtain ⟨as', s₂⟩ := pas
              rw [hrec] at h
              simp only [Except.ok.injEq, Prod.mk.injEq] at h
              obtain ⟨rfl, -⟩ := h
              intro a ha
              rcases List.mem_cons.mp ha with h1 | ha'
              · rw [h1]
                exact hp s a₀ s₁ hps
              · exact ih s₁ as' s₂ hrec a ha'

theorem parse_kpoint_ok_spins {header : Header} {s : List Nat}
    {kp : WeightsPerKPoint} {s' : List Nat}
    (h : parse_kpoint header s = .ok (kp, s')) :
    kp.spins.length = header.num_spins.spin_count ∧
    ∀ sp ∈ kp.spins, ∃ s₀ s₁,
      parse_weight_per_spin header s₀ = .ok (sp, s₁) := by
  unfold parse_kpoint at h
  cases hr : parse_record 28 s with
  | error e => rw [hr] at h; cases h
  | ok pr =>
      obtain ⟨kp_data, s₁⟩ := pr
      rw [hr] at h
      dsimp only at h
      cases hc : parseCountTimes (parse_weight_per_spin header)
          header.num_spins.spin_count s₁ with
      | error e => rw [hc] at h; cases h
      | ok psp =>
          obtain ⟨spins, s₂⟩ := psp
          rw [hc] at h
          simp only [Except.ok.injEq, Prod.mk.injEq] at h
          obtain ⟨rfl, -⟩ := h
          refine ⟨parseCountTimes_length _ _ _ _ _ hc, ?_⟩
          exact parseCountTimes_forall _
            (fun sp => ∃ s₀ s₁,
              parse_weight_per_spin header s₀ = .ok (sp, s₁))
            (fun s₀ a s₁' hp => ⟨s₀, s₁', hp⟩) _ _ _ _ hc

theorem length_eq_two_struct {α : Type} {l : List α} (h : l.length = 2) :
    ∃ a b, l = [a, b] := by
  match l, h with
  | [a, b], _ => exact ⟨a, b, rfl⟩

theorem collectSpinTwo_eq :
    ∀ (kpoints : List WeightsPerKPoint),
      (∀ kp ∈ kpoints, kp.spins.length = 2) →
      collectSpinTwo kpoints = some (kpoints.map (fun kp =>
        (per_spin_to_per_kpt_data (kp.spins.getD 0 (WeightsPerSpin.mk .one 0 [])),
         per_spin_to_per_kpt_data (kp.spins.getD 1 (WeightsPerSpin.mk .one 0 []))))) := by
  intro kpoints
  induction kpoints with
  | nil => intro _; rfl
  | cons kp rest ih =>
      intro h
      obtain ⟨a, b, hab⟩ := length_eq_two_struct (h kp (by simp))
      have hrest := ih (fun k hk => h k (by simp [hk]))
      simp [collectSpinTwo, hab, hrest]

/-- C4. With a two-spin header, (a) a spin block whose spin-index field is
neither 1 nor 2 makes `parse_weight_per_spin` fail with the
invalid-spin-index error; (b) the converted per-k-point data depends only
on a block's `bands`, never on its spin-index field; (c) whenever the
header and the k-point blocks parse, `parse_pdos_weight` succeeds and
assembles `SpinData::SpinPolarized` with the up channel from each
k-point's first (position 0) spin block and the down channel from its
second (position 1) block — positional order, regardless of the spin-index
fields' literal values, which conclusion (b) makes formal. -/
theorem parse_two_spin_positional_assembly :
    (∀ (header : Header) (s : List Nat) (n : Nat) (s₁ : List Nat),
        parse_scalar_u32 s = .ok (n, s₁) → n ≠ 1 → n ≠ 2 →
        parse_weight_per_spin header s = .error (.spinIndex, s₁)) ∧
    (∀ w w' : WeightsPerSpin, w.bands = w'.bands →
        per_spin_to_per_kpt_data w = per_spin_to_per_kpt_data w') ∧
    (∀ (s : List Nat) (header : Header) (s₁ : List Nat)
        (kpoints : List WeightsPerKPoint) (s₂ : List Nat),
        parse_header s = .ok (header, s₁) →
        header.num_spins = .two →
        parseCountTimes (parse_kpoint header) header.total_kpoints s₁ =
          .ok (kpoints, s₂) →
        parse_pdos_weight s = .ok (PDOSWeights.mk true
          header.extract_orbital_states
          (.SpinPolarized
            (kpoints.map (fun kp => per_spin_to_per_kpt_data
              (kp.spins.getD 0 (WeightsPerSpin.mk .one 0 []))))
            (kpoints.map (fun kp => per_spin_to_per_kpt_data
              (kp.spins.getD 1 (WeightsPerSpin.mk .one 0 []))))), s₂)) := by
  refine ⟨?_, ?_, ?_⟩
  · intro header s n s₁ hscalar h1 h2
    have htf : SpinIndex.tryFrom n = none := by
      unfold SpinIndex.tryFrom
      match n, h1, h2 with
      | 0, _, _ => rfl
      | 1, h1, _ => exact absurd rfl h1
      | 2, _, h2 => exact absurd rfl h2
      | (k + 3), _, _ => rfl
    unfold parse_weight_per_spin
    rw [hscalar]
    dsimp only
    rw [htf]
  · intro w w' hb
    unfold per_spin_to_per_kpt_data
    rw [hb]
  · intro s header s₁ kpoints s₂ hheader htwo hkpts
    have hlen : ∀ kp ∈ kpoints, kp.spins.length = 2 := by
      intro kp hkp
      have := parseCountTimes_forall (parse_kpoint header)
        (fun kp => kp.spins.length = header.num_spins.spin_count)
        (fun s₀ a s₁' hp => (parse_kpoint_ok_spins hp).1)
        header.total_kpoints s₁ kpoints s₂ hkpts kp hkp
      rw [htwo] at this
      exact this
    have hpol : header.spin_polarized = true := by
      unfold Header.spin_polarized
      rw [htwo]
    unfold parse_pdos_weight
    rw [hheader]
    dsimp only
    rw [hkpts]
    dsimp only
    unfold assembleOrbitalWeights
    rw [htwo]
    dsimp only
    rw [collectSpinTwo_eq kpoints hlen]
    simp only [Option.map_some', List.map_map]
    rw [hpol]
    rfl

/-- A minimal two-spin k-point section: one 28-byte k-point record, then
two spin blocks (spin index 1 and 2), each with one band of one orbital
weight (an all-zero `f64`). -/
def twoSpinKpointBytes : List Nat :=
  [0, 0, 0, 28, 0, 0, 0, 1] ++ List.replicate 24 0 ++ [0, 0, 0, 28] ++
  [0, 0, 0, 4, 0, 0, 0, 1, 0, 0, 0, 4] ++
  [0, 0, 0, 4, 0, 0, 0, 1, 0, 0, 0, 4] ++
  [0, 0, 0, 8] ++ List.replicate 8 0 ++ [0, 0, 0, 8] ++
  [0, 0, 0, 4, 0, 0, 0, 2, 0, 0, 0, 4] ++
  [0, 0, 0, 4, 0, 0, 0, 1, 0, 0, 0, 4] ++
  [0, 0, 0, 8] ++ List.replicate 8 0 ++ [0, 0, 0, 8]

/-- A minimal spin-polarized `.pdos_weights` stream: header
`total_kpoints = 1, num_spins = 2, num_orbitals = 1, max_bands = 1`,
orbital metadata `(species 7, ion 3, angular momentum S)`, then the
two-spin k-point section. -/
def twoSpinStream : List Nat :=
  [0, 0, 0, 4, 0, 0, 0, 1, 0, 0, 0, 4] ++
  [0, 0, 0, 4, 0, 0, 0, 2, 0, 0, 0, 4] ++
  [0, 0, 0, 4, 0, 0, 0, 1, 0, 0, 0, 4] ++
  [0, 0, 0, 4, 0, 0, 0, 1, 0, 0, 0, 4] ++
  [0, 0, 0, 4, 0, 0, 0, 7, 0, 0, 0, 4] ++
  [0, 0, 0, 4, 0, 0, 0, 3, 0, 0, 0, 4] ++
  [0, 0, 0, 4, 0, 0, 0, 0, 0, 0, 0, 4] ++ twoSpinKpointBytes

set_option maxRecDepth 40000 in
theorem twoSpinStream_header :
    parse_header twoSpinStream =
      .ok (Header.mk 1 .two 1 1 [7] [3] [.S], twoSpinKpointBytes) := by
  decide

theorem twoSpinStream_kpoints :
    parseCountTimes (parse_kpoint (Header.mk 1 .two 1 1 [7] [3] [.S])) 1
        twoSpinKpointBytes =
      .ok ([WeightsPerKPoint.mk 1 (0, 0, 0)
        [WeightsPerSpin.mk .one 1 [WeightsPerEigen.mk [0]],
         WeightsPerSpin.mk .two 1 [WeightsPerEigen.mk [0]]]], []) := by
  norm_num [parseCountTimes, parse_kpoint, parse_record, readBytes,
    beBytesToNat, parse_weight_per_spin, parse_scalar_u32, parse_vec_f64,
    chunksExact, chunksExactAux, f64FromBits, SpinIndex.tryFrom,
    NumSpins.spin_count, twoSpinKpointBytes, List.replicate]

theorem parse_two_spin_positional_assembly_witness :
    parse_pdos_weight twoSpinStream = .ok (PDOSWeights.mk true
      [OrbitalState.new 7 3 .S] (.SpinPolarized [[[0]]] [[[0]]]), []) := by
  have h := parse_two_spin_positional_assembly.2.2 twoSpinStream
    (Header.mk 1 .two 1 1 [7] [3] [.S]) twoSpinKpointBytes
    [WeightsPerKPoint.mk 1 (0, 0, 0)
      [WeightsPerSpin.mk .one 1 [WeightsPerEigen.mk [0]],
       WeightsPerSpin.mk .two 1 [WeightsPerEigen.mk [0]]]] []
    twoSpinStream_header rfl twoSpinStream_kpoints
  rw [h]
  norm_num [Header.extract_orbital_states, OrbitalState.new,
    per_spin_to_per_kpt_data, OrbitalWeight.new]

theorem parse_record_ok_len {expected : Nat} {s payload rest : List Nat}
    (h : parse_record expected s = .ok (payload, rest)) :
    payload.length = expected := by
  unfold parse_record at h
  cases h1 : readBytes 4 s with
  | none => rw [h1] at h; cases h
  | some p =>
      obtain ⟨marker, s₁⟩ := p
      rw [h1] at h
      dsimp only at h
      by_cases hm : beBytesToNat marker ≠ expected
      · rw [if_pos hm] at h; cases h
      · rw [if_neg hm] at h
        cases h2 : readBytes expected s₁ with
        | none => rw [h2] at h; cases h
        | some p2 =>
            obtain ⟨data, s₂⟩ := p2
            rw [h2] at h
            dsimp only at h
            cases h3 : readBytes 4 s₂ with
            | none => rw [h3] at h; cases h
            | some p3 =>
                obtain ⟨em, s₃⟩ := p3
                rw [h3] at h
                dsimp only at h
                by_cases he : beBytesToNat em ≠ expected
                · rw [if_pos he] at h; cases h
                · rw [if_neg he] at h
                  simp only [Except.ok.injEq, Prod.mk.injEq] at h
                  obtain ⟨rfl, -⟩ := h
                  exact readBytes_ok_length h2

theorem chunksExactAux_len {α : Type} (k : Nat) (hk : 0 < k) :
    ∀ (cnt : Nat) (l : List α) (fuel : Nat), l.length = k * cnt →
      l.length ≤ fuel → (chunksExactAux k fuel l).length = cnt := by
  intro cnt
  induction cnt with
  | zero =>
      intro l fuel hlen hfuel
      cases fuel with
      | zero => rfl
      | succ f =>
          have : ¬ (0 < k ∧ k ≤ l.length) := by omega
          simp [chunksExactAux, this]
  | succ cnt ih =>
      intro l fuel hlen hfuel
      have hkl : k ≤ l.length := by
        rw [hlen]
        calc k = k * 1 := by omega
        _ ≤ k * (cnt + 1) := Nat.mul_le_mul_left k (by omega)
      cases fuel with
      | zero => omega
      | succ f =>
          have hcond : 0 < k ∧ k ≤ l.length := ⟨hk, hkl⟩
          show (if 0 < k ∧ k ≤ l.length then
            l.take k :: chunksExactAux k f (l.drop k) else []).length = cnt + 1
          rw [if_pos hcond]
          simp only [List.length_cons]
          rw [ih (l.drop k) f (by simp [hlen]; ring_nf; omega)
            (by simp; omega)]

theorem chunksExact_len {α : Type} {k cnt : Nat} {l : List α} (hk : 0 < k)
    (hlen : l.length = k * cnt) : (chunksExact k l).length = cnt :=
  chunksExactAux_len k hk cnt l l.length hlen le_rfl

theorem parse_vec_f64_len {len : Nat} {s : List Nat} {vs : List ℚ}
    {rest : List Nat} (h : parse_vec_f64 len s = .ok (vs, rest)) :
    vs.length = len := by
  unfold parse_vec_f64 at h
  cases hr : parse_record (8 * len) s with
  | error e => rw [hr] at h; cases h
  | ok p =>
      obtain ⟨data, rest'⟩ := p
      rw [hr] at h
      simp only [Except.ok.injEq, Prod.mk.injEq] at h
      obtain ⟨rfl, -⟩ := h
      rw [List.length_map]
      exact chunksExact_len (by omega) (parse_record_ok_len hr)

theorem parse_weight_per_spin_rows {header : Header} {s : List Nat}
    {w : WeightsPerSpin} {s' : List Nat}
    (h : parse_weight_per_spin header s = .ok (w, s')) :
    ∀ b ∈ w.bands, b.weights.length = header.num_orbitals := by
  unfold parse_weight_per_spin at h
  cases h1 : parse_scalar_u32 s with
  | error e => rw [h1] at h; cases h
  | ok p1 =>
      obtain ⟨index, s₁⟩ := p1
      rw [h1] at h
      dsimp only at h
      cases h2 : SpinIndex.tryFrom index with
      | none => rw [h2] at h; cases h
      | some spin_index =>
          rw [h2] at h
          dsimp only at h
          cases h3 : parse_scalar_u32 s₁ with
          | error e => rw [h3] at h; cases h
          | ok p3 =>
              obtain ⟨nbands_occ, s₂⟩ := p3
              rw [h3] at h
              dsimp only at h
              cases h4 : parseCountTimes (fun st =>
                  match parse_vec_f64 header.num_orbitals st with
                  | .error (e, s') => .error ((.helper e : ParseErr), s')
                  | .ok (weights, rest) =>
                      .ok (WeightsPerEigen.mk weights, rest))
                  nbands_occ s₂ with
              | error e => rw [h4] at h; cases h
              | ok p4 =>
                  obtain ⟨bands, s₃⟩ := p4
                  rw [h4] at h
                  simp only [Except.ok.injEq, Prod.mk.injEq] at h
                  obtain ⟨rfl, -⟩ := h
                  exact parseCountTimes_forall _
                    (fun b => b.weights.length = header.num_orbitals)
                    (fun st a st' hp => by
                      cases hv : parse_vec_f64 header.num_orbitals st with
                      | error e => rw [hv] at hp; cases hp
                      | ok pv =>
                          obtain ⟨weights, rest⟩ := pv
                          rw [hv] at hp
                          simp only [Except.ok.injEq, Prod.mk.injEq] at hp
                          obtain ⟨rfl, -⟩ := hp
                          exact parse_vec_f64_len hv)
                    _ _ _ _ h4

theorem mem_of_head?_eq {α : Type} {l : List α} {a : α}
    (h : l.head? = some a) : a ∈ l := by
  cases l with
  | nil => cases h
  | cons x xs =>
      simp only [List.head?_cons, Option.some.injEq] at h
      simp [h.symm]

theorem mem_of_get?_eq {α : Type} :
    ∀ {l : List α} {n : Nat} {a : α}, l.get? n = some a → a ∈ l := by
  intro l
  induction l with
  | nil => intro n a h; cases h
  | cons x xs ih =>
      intro n a h
      cases n with
      | zero =>
          simp only [List.get?_cons_zero, Option.some.injEq] at h
          simp [h.symm]
      | succ n =>
          simp only [List.get?_cons_succ] at h
          simp [ih h]

theorem per_spin_rows {n : Nat} {fb : WeightsPerSpin}
    (hb : ∀ b ∈ fb.bands, b.weights.length = n) :
    ∀ row ∈ per_spin_to_per_kpt_data fb, row.length = n := by
  intro row hrow
  unfold per_spin_to_per_kpt_data at hrow
  obtain ⟨b, hbmem, rfl⟩ := List.mem_map.mp hrow
  rw [List.length_map]
  exact hb b hbmem

theorem collectSpinOne_mem :
    ∀ (kpoints : List WeightsPerKPoint) (conv : List (List (List ℚ))),
      collectSpinOne kpoints = some conv →
      ∀ c ∈ conv, ∃ kp ∈ kpoints, ∃ fb ∈ kp.spins,
        c = per_spin_to_per_kpt_data fb := by
  intro kpoints
  induction kpoints with
  | nil =>
      intro conv h
      simp only [collectSpinOne, Option.some.injEq] at h
      subst h
      intro c hc
      cases hc
  | cons kp rest ih =>
      intro conv h
      unfold collectSpinOne at h
      cases hh : kp.spins.head? with
      | none => rw [hh] at h; cases h
      | some fb =>
          rw [hh] at h
          cases hrec : collectSpinOne rest with
          | none => rw [hrec] at h; cases h
          | some converted =>
              rw [hrec] at h
              simp only [Option.some.injEq] at h
              subst h
              intro c hc
              rcases List.mem_cons.mp hc with h1 | hc'
              · exact ⟨kp, by simp, fb, mem_of_head?_eq hh, h1⟩
              · obtain ⟨kp', hkp', fb', hfb', hceq⟩ := ih converted hrec c hc'
                exact ⟨kp', by simp [hkp'], fb', hfb', hceq⟩

theorem collectSpinTwo_mem :
    ∀ (kpoints : List WeightsPerKPoint)
      (pairs : List (List (List ℚ) × List (List ℚ))),
      collectSpinTwo kpoints = some pairs →
      ∀ pr ∈ pairs, ∃ kp ∈ kpoints, ∃ fb ∈ kp.spins, ∃ sb ∈ kp.spins,
        pr = (per_spin_to_per_kpt_data fb, per_spin_to_per_kpt_data sb) := by
  intro kpoints
  induction kpoints with
  | nil =>
      intro pairs h
      simp only [collectSpinTwo, Option.some.injEq] at h
      subst h
      intro pr hpr
      cases hpr
  | cons kp rest ih =>
      intro pairs h
      unfold collectSpinTwo at h
      cases hh : kp.spins.head? with
      | none => rw [hh] at h; cases h
      | some fb =>
          rw [hh] at h
          cases hg : kp.spins.get? 1 with
          | none => rw [hg] at h; cases h
          | some sb =>
              rw [hg] at h
              cases hrec : collectSpinTwo rest with
              | none => rw [hrec] at h; cases h
              | some converted =>
                  rw [hrec] at h
                  simp only [Option.some.injEq] at h
                  subst h
                  intro pr hpr
                  rcases List.mem_cons.mp hpr with h1 | hpr'
                  · exact ⟨kp, by simp, fb, mem_of_head?_eq hh, sb,
                      mem_of_get?_eq hg, h1⟩
                  · obtain ⟨kp', hkp', fb', hfb', sb', hsb', heq⟩ :=
                      ih converted hrec pr hpr'
                    exact ⟨kp', by simp [hkp'], fb', hfb', sb', hsb', heq⟩

/-- Shape of the innermost orbital-weight rows of a parsed weight table:
every row of every k-point of every spin channel has the given length. -/
def innerRowsLen (n : Nat) : SpinData (List (List (List ℚ))) → Prop
  | .NonPolarized kpts => ∀ kpt ∈ kpts, ∀ row ∈ kpt, row.length = n
  | .SpinPolarized up down =>
      (∀ kpt ∈ up, ∀ row ∈ kpt, row.length = n) ∧
      (∀ kpt ∈ down, ∀ row ∈ kpt, row.length = n)

/-- C8. Whenever the weight-file body parse succeeds, every innermost
orbital-weight row of the resulting table — for every spin channel, every
k-point, and every eigenvalue — has length exactly the header-declared
`num_orbitals` (each row is one `parse_vec::<f64>` record of
`8 × num_orbitals` bytes split into `num_orbitals` values, and the
spin-major reassembly only maps over the rows). -/
theorem parsed_weight_rows_have_num_orbitals_len :
    ∀ (s : List Nat) (pw : PDOSWeights) (s' : List Nat),
      parse_pdos_weight s = .ok (pw, s') →
      ∃ (header : Header) (s₁ : List Nat),
        parse_header s = .ok (header, s₁) ∧
        innerRowsLen header.num_orbitals pw.orbital_weights := by
  intro s pw s' h
  unfold parse_pdos_weight at h
  cases hh : parse_header s with
  | error e => rw [hh] at h; cases h
  | ok ph =>
      obtain ⟨header, s₁⟩ := ph
      rw [hh] at h
      dsimp only at h
      cases hk : parseCountTimes (parse_kpoint header) header.total_kpoints
          s₁ with
      | error e => rw [hk] at h; cases h
      | ok pk =>
          obtain ⟨kpoints, s₂⟩ := pk
          rw [hk] at h
          dsimp only at h
          have hkq : ∀ kp ∈ kpoints, ∀ sp ∈ kp.spins, ∀ b ∈ sp.bands,
              b.weights.length = header.num_orbitals := by
            intro kp hkp
            exact parseCountTimes_forall (parse_kpoint header)
              (fun kp => ∀ sp ∈ kp.spins, ∀ b ∈ sp.bands,
                b.weights.length = header.num_orbitals)
              (fun s₀ a s₁' hp => by
                intro sp hsp
                obtain ⟨sa, sb, hws⟩ := (parse_kpoint_ok_spins hp).2 sp hsp
                exact parse_weight_per_spin_rows hws)
              _ _ _ _ hk kp hkp
          cases ha : assembleOrbitalWeights header.num_spins kpoints with
          | none => rw [ha] at h; cases h
          | some ow =>
              rw [ha] at h
              simp only [Except.ok.injEq, Prod.mk.injEq] at h
              obtain ⟨rfl, -⟩ := h
              refine ⟨header, s₁, rfl, ?_⟩
              show innerRowsLen header.num_orbitals ow
              unfold assembleOrbitalWeights at ha
              cases hns : header.num_spins with
              | one =>
                  rw [hns] at ha
                  dsimp only at ha
                  cases hco : collectSpinOne kpoints with
                  | none => rw [hco] at ha; cases ha
                  | some conv =>
                      rw [hco] at ha
                      simp only [Option.map_some', Option.some.injEq] at ha
                      subst ha
                      intro kpt hkpt row hrow
                      obtain ⟨kp, hkp, fb, hfb, rfl⟩ :=
                        collectSpinOne_mem kpoints conv hco kpt hkpt
                      exact per_spin_rows (hkq kp hkp fb hfb) row hrow
              | two =>
                  rw [hns] at ha
                  dsimp only at ha
                  cases hct : collectSpinTwo kpoints with
                  | none => rw [hct] at ha; cases ha
                  | some pairs =>
                      rw [hct] at ha
                      simp only [Option.map_some', Option.some.injEq] at ha
                      subst ha
                      constructor
                      · intro kpt hkpt row hrow
                        obtain ⟨pr, hpr, hpr1⟩ := List.mem_map.mp hkpt
                        obtain ⟨kp, hkp, fb, hfb, sb, hsb, heq⟩ :=
                          collectSpinTwo_mem kpoints pairs hct pr hpr
                        rw [heq] at hpr1
                        rw [← hpr1] at hrow
                        exact per_spin_rows (hkq kp hkp fb hfb) row hrow
                      · intro kpt hkpt row hrow
                        obtain ⟨pr, hpr, hpr1⟩ := List.mem_map.mp hkpt
                        obtain ⟨kp, hkp, fb, hfb, sb, hsb, heq⟩ :=
                          collectSpinTwo_mem kpoints pairs hct pr hpr
                        rw [heq] at hpr1
                        rw [← hpr1] at hrow
                        exact per_spin_rows (hkq kp hkp sb hsb) row hrow

theorem parsed_weight_rows_have_num_orbitals_len_witness :
    parse_pdos_weight twoSpinStream = .ok (PDOSWeights.mk true
      [OrbitalState.new 7 3 .S] (.SpinPolarized [[[0]]] [[[0]]]), []) ∧
    ∃ (header : Header) (s₁ : List Nat),
      parse_header twoSpinStream = .ok (header, s₁) ∧
      innerRowsLen header.num_orbitals
        (SpinData.SpinPolarized ([[[(0 : ℚ)]]]) ([[[(0 : ℚ)]]])) := by
  have hpd : parse_pdos_weight twoSpinStream = .ok (PDOSWeights.mk true
      [OrbitalState.new 7 3 .S] (.SpinPolarized [[[0]]] [[[0]]]), []) := by
    unfold parse_pdos_weight
    rw [twoSpinStream_header]
    dsimp only
    rw [twoSpinStream_kpoints]
    norm_num [assembleOrbitalWeights, collectSpinTwo,
      per_spin_to_per_kpt_data, OrbitalWeight.new,
      Header.extract_orbital_states, Header.spin_polarized,
      OrbitalState.new]
  refine ⟨hpd, ?_⟩
  have h := parsed_weight_rows_have_num_orbitals_len twoSpinStream
    (PDOSWeights.mk true [OrbitalState.new 7 3 .S]
      (.SpinPolarized [[[0]]] [[[0]]])) [] hpd
  exact h
